import Mathlib

/-!
A shallow embedding of the graph-editor program in `src/main.py`: the entity
model (`Node`, `Edge`), the click-driven interaction state machine
(`GraphView.mouseDoubleClickEvent`), and the serialization codec
(`GraphView.save_graph` / `GraphView.load_graph`, `MainWindow.quickSave` /
`MainWindow.save`).  Python objects are represented by numeric object ids;
the Qt scene's node and edge items are association lists from ids to the
Python-level attributes the program reads and writes.  Rendering-only state
(pens, brushes, cached line geometry) is not part of the model.
-/

/-- Ordered key/value metadata dictionary (the `_data` attribute). -/
abbrev Dict := List (String × String)

/-- The persistent attributes of a `Node` graphics object
(src/main.py, class `Node`): `_name`, `_textcolor`, `_color`, `_data`,
the scene position of the item's top-left corner, `_radius`, and `_edges`
(the Edge objects registered at this node, by object id, in append order). -/
structure NodeD where
  name : String
  textcolor : String
  color : String
  mdata : Dict
  pos : Int × Int
  radius : Int
  edges : List Nat
deriving DecidableEq

/-- The persistent attributes of an `Edge` object: its `_source` and `_dest`
Node objects, by object id. -/
structure EdgeD where
  src : Nat
  dst : Nat
deriving DecidableEq

/-- The editor state: the scene's Node and Edge items (keyed by object id),
the view's `_nodes_map` name index, the `_selectedNode` interaction state,
and fresh-id counters standing for object allocation. -/
structure GState where
  nodes : List (Nat × NodeD)
  edges : List (Nat × EdgeD)
  nodesMap : List (String × Nat)
  selected : Option Nat
  nextN : Nat
  nextE : Nat
deriving DecidableEq

/-- Association-list lookup (first entry wins), used for object-id and
dict-key resolution. -/
def alookup {κ α : Type} [DecidableEq κ] : List (κ × α) → κ → Option α
  | [], _ => none
  | p :: l, k => if p.1 = k then some p.2 else alookup l k

/-- `node._name` of the node object with id `i` (defaulting for ids that are
not live; the program never dereferences those). -/
def nameOf (s : GState) (i : Nat) : String :=
  ((alookup s.nodes i).map NodeD.name).getD ""

/-- `node._edges` of the node object with id `i`. -/
def edgeList (s : GState) (i : Nat) : List Nat :=
  ((alookup s.nodes i).map NodeD.edges).getD []

/-- `[edge._source._name, edge._dest._name]` for the edge object with id `e`. -/
def pairOf (s : GState) (e : Nat) : String × String :=
  match alookup s.edges e with
  | some ed => (nameOf s ed.src, nameOf s ed.dst)
  | none => ("", "")

/-- In `Node.get_edges` (src/main.py lines 58-63) each append is guarded by
`if i not in edges`, where `i` is an Edge object while `edges` accumulates
name pairs; Python equality between an Edge instance and a two-element list
is always false, so the guard always passes.  We embed that comparison as the
constantly-false test it is. -/
def edgeEqPair (_e : Nat) (_p : String × String) : Bool := false

/-- `Node.get_edges` (lines 58-63): the `[source._name, dest._name]` pairs of
the edges in this node's `_edges` list, in list order, each append guarded by
the (always-false, see `edgeEqPair`) membership test of the source. -/
def get_edges (s : GState) (i : Nat) : List (String × String) :=
  (edgeList s i).foldl
    (fun acc e => if acc.any (edgeEqPair e) then acc else acc ++ [pairOf s e]) []

/-- Rewrite one node object in place. -/
def updateNode (s : GState) (i : Nat) (f : NodeD → NodeD) : GState :=
  { s with nodes := s.nodes.map (fun p => if p.1 = i then (p.1, f p.2) else p) }

/-- `self._edges.append(edge)` on the node with id `i`. -/
def pushEdge (s : GState) (i : Nat) (e : Nat) : GState :=
  updateNode s i (fun n => { n with edges := n.edges ++ [e] })

/-- `Node.add_edge` (lines 97-107) on the node with id `selfId`: an
unconditional append when the list is empty, then a guarded append that skips
when the ordered name pair of the new edge is already listed by this node or
by the edge's destination node. -/
def add_edge (s : GState) (selfId : Nat) (e : Nat) : GState :=
  let s1 := if (edgeList s selfId).length = 0 then pushEdge s selfId e else s
  match alookup s1.edges e with
  | none => s1
  | some ed =>
    let target := pairOf s1 e
    if target ∉ get_edges s1 selfId ∧ target ∉ get_edges s1 ed.dst then
      pushEdge s1 selfId e
    else s1

/-- Allocation of a fresh Edge object recording its two endpoints
(the assignments of `Edge.__init__` before the `add_edge` calls). -/
def allocEdge (s : GState) (src dst : Nat) : GState :=
  { s with edges := s.edges ++ [(s.nextE, ⟨src, dst⟩)], nextE := s.nextE + 1 }

/-- `Edge.__init__` (lines 157-177) followed by the caller's
`scene().addItem(edg)`: allocate the edge object recording its endpoints,
register it with the source then with the destination via `add_edge`.  Every
Edge the program constructs is added to the scene immediately after
construction, so allocation and scene membership coincide in the model. -/
def newEdge (s : GState) (src dst : Nat) : GState :=
  let s1 := add_edge (allocEdge s src dst) src s.nextE
  add_edge s1 dst s.nextE

/-- CPython semantics of `for e in lst: (if cond: lst.remove(e))` as written in
`Node.del_edge`: fetching advances an index over the shrinking list, so
removing the current element makes the loop skip the element that slides into
its place.  `list.remove` erases the first element equal to the removed one;
a node's edge list never holds the same Edge object twice (`add_edge` appends
a given edge at most once per registration), so that is the current element. -/
def pyForRemove (p : Nat → Bool) : List Nat → List Nat
  | [] => []
  | [x] => if p x then [] else [x]
  | x :: y :: ys => if p x then y :: pyForRemove p ys else x :: pyForRemove p (y :: ys)

/-- The comparison in `Node.del_edge`:
`edge._source == e._source and edge._dest == e._dest` — Qt object identity on
both endpoint Nodes. -/
def matchEnds (s : GState) (ed : EdgeD) (k : Nat) : Bool :=
  match alookup s.edges k with
  | some kd => decide (kd.src = ed.src ∧ kd.dst = ed.dst)
  | none => false

/-- `Node.del_edge` (lines 109-117) on the node with id `selfId`: iterate over
`_edges`, removing every edge whose ordered endpoint objects equal those of
`e` (with the CPython remove-while-iterating behavior, `pyForRemove`). -/
def del_edge (s : GState) (selfId : Nat) (e : Nat) : GState :=
  match alookup s.edges e with
  | none => s
  | some ed =>
    updateNode s selfId (fun n => { n with edges := pyForRemove (matchEnds s ed) n.edges })

/-- `Edge.delete` (lines 179-182): deregister from the source node, then from
the destination node.  The edge object itself stays allocated; the caller
removes it from the scene separately. -/
def edgeDelete (s : GState) (e : Nat) : GState :=
  match alookup s.edges e with
  | none => s
  | some ed => del_edge (del_edge s ed.src e) ed.dst e

/-- `scene().removeItem(edg)` for an edge item. -/
def removeEdgeItem (s : GState) (e : Nat) : GState :=
  { s with edges := s.edges.filter (fun p => decide (p.1 ≠ e)) }

/-- `[i for i in self._selectedNode._edges if i in item._edges]`
(line 422): the edges of the selected node, filtered by Python identity
membership in the target node's list. -/
def sharedEdges (s : GState) (a b : Nat) : List Nat :=
  (edgeList s a).filter (fun e => decide (e ∈ edgeList s b))

/-- `Node.setPosition` (lines 145-154): the caller supplies the intended
visual point; the stored top-left position is offset by the node's radius on
both axes. -/
def setPosition (n : NodeD) (p : Int × Int) : NodeD :=
  { n with pos := (p.1 - n.radius, p.2 - n.radius) }

/-- `Node.__init__` defaults (lines 17-36): white text, the fixed fill color,
an empty metadata dict, radius 30, an empty edge list, position not yet set. -/
def newNodeDefaults (name : String) : NodeD :=
  { name := name, textcolor := "white", color := "#5AD469", mdata := [],
    pos := (0, 0), radius := 30, edges := [] }

/-- The snapshot shape consumed by `Node.reload`: the four keys the source
reads (`name`, `color`, `textcolor`, `data`). -/
structure Snapshot where
  name : String
  color : String
  textcolor : String
  mdata : Dict
deriving DecidableEq

/-- `Node.reload` (lines 38-43): overwrite name, color, text color and the
metadata dict from the snapshot, then request a repaint (a rendering effect
outside the model). -/
def reload (n : NodeD) (d : Snapshot) : NodeD :=
  { n with name := d.name, color := d.color, textcolor := d.textcolor, mdata := d.mdata }

/-- What a pointer event's hit test (`self.itemAt(p)`) produced: nothing,
a Node item of the scene, or an Edge item of the scene. -/
inductive ClickTarget where
  | empty (p : Int × Int)
  | onNode (i : Nat)
  | onEdge (e : Nat)
deriving DecidableEq

/-- The primary-button branch of `GraphView.mouseDoubleClickEvent`
(lines 404-468), with the hit test abstracted into the `ClickTarget`.
A hit on an Edge item satisfies neither `type(item) is Node` branch and does
nothing; a hit on empty space clears the selection and creates a node named
after the current scene node count, placed through `setPosition`; a hit on a
Node selects it, or — with a different node already selected — creates or
deletes an edge according to the shared-edge comparison of the source. -/
def primaryClick (s : GState) (t : ClickTarget) : GState :=
  match t with
  | .onEdge _ => s
  | .empty p =>
    let s0 : GState := { s with selected := none }
    let n := setPosition (newNodeDefaults (toString (s0.nodes.length + 1))) p
    { s0 with nodes := s0.nodes ++ [(s0.nextN, n)], nextN := s0.nextN + 1 }
  | .onNode i =>
    match alookup s.nodes i with
    | none => s
    | some _ =>
      match s.selected with
      | none => { s with selected := some i }
      | some a =>
        if a = i then s
        else
          match sharedEdges s a i with
          | [] => { newEdge s a i with selected := none }
          | e0 :: rest =>
            if (nameOf s a, nameOf s i) ∉ ((e0 :: rest).map (pairOf s)) then
              { newEdge s a i with selected := none }
            else
              { removeEdgeItem (edgeDelete s e0) e0 with selected := none }

/-- The tertiary (middle) button branch (lines 485-492): clear the selection
when the clicked node is the currently selected one. -/
def middleClick (s : GState) (t : ClickTarget) : GState :=
  match t with
  | .onNode i =>
    match alookup s.nodes i with
    | none => s
    | some _ =>
      match s.selected with
      | some a => if a = i then { s with selected := none } else s
      | none => s
  | _ => s

/-- One element of the persisted JSON array (the dict built by `Node.get`,
lines 45-57). -/
structure NodeRec where
  name : String
  edges : List (String × String)
  color : String
  textcolor : String
  pos : Int × Int
  mdata : Dict
deriving DecidableEq

/-- `Node.get` (lines 45-57): the exportable snapshot of one node; `edges` is
computed by `get_edges`, `pos` is the current scene position. -/
def nodeGet (s : GState) (i : Nat) (n : NodeD) : NodeRec :=
  { name := n.name, edges := get_edges s i, color := n.color,
    textcolor := n.textcolor, pos := n.pos, mdata := n.mdata }

/-- `GraphView.save_graph` (lines 529-537): snapshot every Node item of the
scene.  (Qt's `items()` ordering is a stacking-order detail; the model keeps
insertion order, and the persistence claims are stated up to ordering.) -/
def save_graph (s : GState) : List NodeRec :=
  s.nodes.map (fun p => nodeGet s p.1 p.2)

/-- The outcome of `GraphView.load_graph`: normal completion, an uncaught
`KeyError` escaping from the `_nodes_map` lookup (carrying the program state
at that moment and the missing key), or the early return for a path of
length ≤ 3 (status message only, nothing changed). -/
inductive LoadResult where
  | ok (s : GState)
  | keyError (s : GState) (missing : String)
  | aborted (s : GState)
deriving DecidableEq

/-- Python dict assignment `self._nodes_map[name] = node`: overwrite in place
or append. -/
def dictInsert : List (String × Nat) → String → Nat → List (String × Nat)
  | [], k, v => [(k, v)]
  | p :: l, k, v => if p.1 = k then (k, v) :: l else p :: dictInsert l k v

/-- The body of the first loop of `load_graph` (lines 511-519) for one node
record: fold the record's `edges` pairs into the running deduplicated
`edge_map`, construct the Node (name, textcolor, color, data — and note the
raw `setPos`, with no radius offset), index it in `_nodes_map`, add it to the
scene. -/
def loadNodeStep (acc : GState × List (String × String)) (r : NodeRec) :
    GState × List (String × String) :=
  let em := r.edges.foldl (fun em e => if e ∈ em then em else em ++ [e]) acc.2
  let n : NodeD := { name := r.name, textcolor := r.textcolor, color := r.color,
                     mdata := r.mdata, pos := r.pos, radius := 30, edges := [] }
  let s := acc.1
  ({ s with nodes := s.nodes ++ [(s.nextN, n)],
            nodesMap := dictInsert s.nodesMap r.name s.nextN,
            nextN := s.nextN + 1 }, em)

/-- The second loop of `load_graph` (lines 521-525): resolve each collected
pair through `_nodes_map` — a missing name raises `KeyError`, leaving the
scene as rebuilt so far — and construct the Edge (which self-registers and is
added to the scene). -/
def loadEdges (s : GState) : List (String × String) → LoadResult
  | [] => .ok s
  | (a, b) :: rest =>
    match alookup s.nodesMap a with
    | none => .keyError s a
    | some src =>
      match alookup s.nodesMap b with
      | none => .keyError s b
      | some dst => loadEdges (newEdge s src dst) rest

/-- `GraphView.load_graph` (lines 494-527), with the parsed JSON document
passed in place of the file contents: a path of length ≤ 3 aborts with a
status message and changes nothing; otherwise the scene and `_nodes_map` are
cleared first and the document is rebuilt into them (`_selectedNode` is not
reset by the source). -/
def load_graph (s : GState) (file : String) (doc : List NodeRec) : LoadResult :=
  if file.length ≤ 3 then .aborted s
  else
    let s0 : GState := { s with nodes := [], edges := [], nodesMap := [] }
    let r := doc.foldl loadNodeStep (s0, [])
    loadEdges r.1 r.2

/-- The guard of `MainWindow.quickSave` (line 585): the write proceeds iff the
current file name has length ≥ 3. -/
def quickSaveProceeds (file : String) : Prop := 3 ≤ file.length

/-- The guard of `MainWindow.save` (line 607): the write proceeds iff the
chosen file name has length ≥ 3. -/
def saveProceeds (fileName : String) : Prop := 3 ≤ fileName.length

/-- A freshly constructed `GraphView`: empty scene, empty `_nodes_map`, no
selection. -/
def initState : GState :=
  { nodes := [], edges := [], nodesMap := [], selected := none, nextN := 0, nextE := 0 }

/-- Invariant I3 of the spec: the names of the live nodes are pairwise
distinct.  The source documents this as caller responsibility. -/
def namesNodup (s : GState) : Prop :=
  (s.nodes.map (fun p => p.2.name)).Nodup

/-- States reachable from a fresh view through the interaction state machine
(primary and tertiary activations) and the import path, along runs that
respect the spec's documented preconditions: live node names stay pairwise
distinct (invariant I3, caller responsibility per the source), and imports
are performed with no pending selection (the spec has the selection reset on
reload; the embedding does not model Qt's destruction of a selected item by
`scene.clear`).  Import steps cover both completed loads and loads that stop
on a `KeyError`. -/
inductive GoodReach : GState → Prop where
  | init : GoodReach initState
  | primary (s : GState) (t : ClickTarget) : GoodReach s →
      namesNodup (primaryClick s t) → GoodReach (primaryClick s t)
  | middle (s : GState) (t : ClickTarget) : GoodReach s → GoodReach (middleClick s t)
  | loadOk (s : GState) (file : String) (doc : List NodeRec) (s2 : GState) :
      GoodReach s → s.selected = none → load_graph s file doc = .ok s2 →
      namesNodup s2 → GoodReach s2
  | loadErr (s : GState) (file : String) (doc : List NodeRec) (s2 : GState)
      (m : String) : GoodReach s → s.selected = none →
      load_graph s file doc = .keyError s2 m → namesNodup s2 → GoodReach s2

/-! ## Concrete program runs used as counterexamples and evaluation inputs -/

/-- Extract the program state a load left behind, whichever way it ended. -/
def stateOf : LoadResult → GState
  | .ok s => s
  | .keyError s _ => s
  | .aborted s => s

/-- A node record as the importer expects it, with the editor's default
colors, position (5, 6) and empty metadata. -/
def mkRec (nm : String) (es : List (String × String)) : NodeRec :=
  { name := nm, edges := es, color := "#5AD469", textcolor := "white",
    pos := (5, 6), mdata := [] }

/-- Click run: two nodes, then an edge "1"→"2", then the reverse edge
"2"→"1" (the double-click handler's duplicate check compares ordered pairs,
so the reverse direction is created, not toggled). -/
def runA1 : GState := primaryClick initState (.empty (100, 100))

def runA2 : GState := primaryClick runA1 (.empty (300, 100))

def runA3 : GState := primaryClick runA2 (.onNode 0)

def runA4 : GState := primaryClick runA3 (.onNode 1)

def runA5 : GState := primaryClick runA4 (.onNode 1)

def runA6 : GState := primaryClick runA5 (.onNode 0)

def runA7 : GState := primaryClick runA6 (.onNode 1)

/-- Import document for the adjacency-asymmetry counterexample: a single node
named "2" (a perfectly well-formed document). -/
def c4doc : List NodeRec := [mkRec "2" []]

def runB0 : GState := stateOf (load_graph initState "g.json" c4doc)

def runB1 : GState := primaryClick runB0 (.empty (10, 10))

def runB2 : GState := primaryClick runB1 (.empty (20, 20))

def runB3 : GState := primaryClick runB2 (.onNode 0)

def runB4 : GState := primaryClick runB3 (.onNode 2)

def runB5 : GState := primaryClick runB4 (.onNode 1)

def runB6 : GState := primaryClick runB5 (.onNode 2)

/-- Import document whose edge pair references the absent node name "3". -/
def c2doc : List NodeRec := [mkRec "1" [("1", "3")]]

/-- A prior non-empty graph: one interactively created node. -/
def c2prior : GState := primaryClick initState (.empty (50, 50))

/-- A node (id 2, named "2") whose `_edges` list holds two distinct Edge
objects with equal name pairs: its two neighbours (ids 0 and 1) are distinct
Node objects that share the name "1".  Such states arise through the
metadata editor's rename path (`Node.reload` changes `_name` while edges are
compared by current names): create "1"→"2", rename node "1" away, create an
edge from a fresh node named "1" to "2", rename the first node back to "1". -/
def dupPairState : GState :=
  { nodes := [(0, { name := "1", textcolor := "white", color := "#5AD469", mdata := [],
                    pos := (0, 0), radius := 30, edges := [0] }),
              (1, { name := "1", textcolor := "white", color := "#5AD469", mdata := [],
                    pos := (0, 0), radius := 30, edges := [1] }),
              (2, { name := "2", textcolor := "white", color := "#5AD469", mdata := [],
                    pos := (0, 0), radius := 30, edges := [0, 1] })],
    edges := [(0, ⟨0, 2⟩), (1, ⟨1, 2⟩)],
    nodesMap := [], selected := none, nextN := 3, nextE := 2 }

/-! ## Counterexamples and code-bug evaluations -/

/-- C1 counterexample: after the click run `runA6` — create edge "1"→"2",
then select "2" and double-click "1" — the handler's ordered-pair comparison
lets a second edge through, so two live Edge objects (ids 0 and 1) share the
unordered endpoint-name pair {"1", "2"}: their ordered pairs are ("1", "2")
and ("2", "1").  This refutes I1/P1 as stated at the unordered-pair level. -/
theorem c1_unordered_duplicate_counterexample :
    alookup runA6.edges 0 = some ⟨0, 1⟩ ∧ alookup runA6.edges 1 = some ⟨1, 0⟩ ∧
    pairOf runA6 0 = ("1", "2") ∧ pairOf runA6 1 = ("2", "1") ∧
    (pairOf runA6 0).1 = (pairOf runA6 1).2 ∧ (pairOf runA6 0).2 = (pairOf runA6 1).1 := by
  decide

/-- C4 counterexample: import the (name-unique) document `[node "2"]`, then
double-click empty space — the count-based naming scheme reuses the name "2".
With the two like-named nodes and a third node "3", the second edge creation
(`runB6`) appends the new Edge (id 1) to its source's `_edges` but skips the
destination (the destination already lists the pair ("2", "3")), so a live
Edge sits in exactly one of its endpoints' edge lists, refuting P2/I2 over
states reachable through the state machine and the import path. -/
theorem c4_asymmetric_registration_counterexample :
    load_graph initState "g.json" c4doc = .ok runB0 ∧
    nameOf runB0 0 = "2" ∧ nameOf runB1 1 = "2" ∧
    alookup runB6.edges 1 = some ⟨1, 2⟩ ∧
    (1 ∈ edgeList runB6 1) ∧ (1 ∉ edgeList runB6 2) := by
  decide

/-- C6 counterexample: with edges "1"→"2" (id 0) and "2"→"1" (id 1) both
live, select node "2" (id 1) and double-click node "1" (id 0).  The ordered
pair [A.name, B.name] = ("2", "1") is among the shared edges' pairs (edge 1),
so the delete branch fires — but the source deletes `edg[0]`, the first
shared edge in the selected node's list, which is edge 0 ("1"→"2"): the edge
with source A and dest B survives and a different edge of the unordered pair
is removed. -/
theorem c6_deletes_first_shared_edge_counterexample :
    alookup runA6.edges 0 = some ⟨0, 1⟩ ∧ alookup runA6.edges 1 = some ⟨1, 0⟩ ∧
    runA7.selected = some 1 ∧ nameOf runA7 1 = "2" ∧ nameOf runA7 0 = "1" ∧
    pairOf runA7 1 = ("2", "1") ∧
    alookup (primaryClick runA7 (.onNode 0)).edges 0 = none ∧
    alookup (primaryClick runA7 (.onNode 0)).edges 1 = some ⟨1, 0⟩ := by
  decide

/-- C2 (code bug, evaluation): importing a document whose edge pair
references the absent node "3" over a non-empty prior graph raises the
lookup error only after the prior scene has been cleared and the new
document's node has been committed: the escaping state holds exactly the new
node "1" (at the document position (5, 6)) and none of the prior graph
(the prior state held one node at (20, 20)). -/
theorem c2_partial_graph_committed :
    load_graph c2prior "data.json" c2doc =
      .keyError
        { nodes := [(1, { name := "1", textcolor := "white", color := "#5AD469",
                          mdata := [], pos := (5, 6), radius := 30, edges := [] })],
          edges := [], nodesMap := [("1", 1)], selected := none,
          nextN := 2, nextE := 0 } "3" ∧
    c2prior.nodes =
      [(0, { name := "1", textcolor := "white", color := "#5AD469",
             mdata := [], pos := (20, 20), radius := 30, edges := [] })] := by
  decide

/-- C8 (code bug, evaluation): `get_edges` of node 2 in `dupPairState`
returns the pair ("1", "2") twice — the dedup guard `if i not in edges`
compares an Edge object against name pairs and never fires — so the
"duplicate pairs removed" contract of I5 is not met by the code. -/
theorem c8_get_edges_does_not_dedup :
    get_edges dupPairState 2 = [("1", "2"), ("1", "2")] ∧
    ¬ (get_edges dupPairState 2).Nodup := by
  decide

/-! ## C9: reload frame property -/

/-- C9: for every node and snapshot, `Node.reload` overwrites exactly the
name, color, text color and metadata from the snapshot and leaves the edge
list, the position (and the radius) unchanged. -/
theorem c9_reload_frame (n : NodeD) (d : Snapshot) :
    (reload n d).name = d.name ∧ (reload n d).color = d.color ∧
    (reload n d).textcolor = d.textcolor ∧ (reload n d).mdata = d.mdata ∧
    (reload n d).edges = n.edges ∧ (reload n d).pos = n.pos ∧
    (reload n d).radius = n.radius :=
  ⟨rfl, rfl, rfl, rfl, rfl, rfl, rfl⟩

/-! ## Toolkit: association-list and fold lemmas -/

theorem foldl_append_map {α β : Type} (f : α → β) (l : List α) :
    ∀ a : List β, l.foldl (fun acc x => acc ++ [f x]) a = a ++ l.map f := by
  induction l with
  | nil => intro a; simp
  | cons x l ih => intro a; simp [ih]

/-- `get_edges` is plainly the pair projection of the node's edge list: the
source's dedup guard compares an Edge against pairs and never fires. -/
theorem get_edges_eq_map (s : GState) (i : Nat) :
    get_edges s i = (edgeList s i).map (pairOf s) := by
  have h : ∀ (acc : List (String × String)) (e : Nat),
      (if acc.any (edgeEqPair e) then acc else acc ++ [pairOf s e]) = acc ++ [pairOf s e] := by
    intro acc e
    simp [edgeEqPair]
  unfold get_edges
  simp only [h]
  exact foldl_append_map (pairOf s) (edgeList s i) []

theorem alookup_append {κ α : Type} [DecidableEq κ] (l m : List (κ × α)) (k : κ) :
    alookup (l ++ m) k = match alookup l k with
      | some v => some v
      | none => alookup m k := by
  induction l with
  | nil => simp [alookup]
  | cons p l ih =>
    by_cases h : p.1 = k <;> simp [alookup, h, ih]

theorem alookup_append_ne {κ α : Type} [DecidableEq κ] (l : List (κ × α)) (q : κ × α)
    (k : κ) (h : q.1 ≠ k) : alookup (l ++ [q]) k = alookup l k := by
  rw [alookup_append]
  cases hl : alookup l k with
  | some v => rfl
  | none => simp [alookup, h]

theorem alookup_append_fresh {κ α : Type} [DecidableEq κ] (l : List (κ × α)) (q : κ × α)
    (h : ∀ p ∈ l, p.1 ≠ q.1) : alookup (l ++ [q]) q.1 = some q.2 := by
  rw [alookup_append]
  have hl : alookup l q.1 = none := by
    induction l with
    | nil => rfl
    | cons p l ih =>
      have hp : p.1 ≠ q.1 := h p (List.mem_cons_self p l)
      simp [alookup, hp]
      exact ih (fun r hr => h r (List.mem_cons_of_mem p hr))
  simp [hl, alookup]

theorem alookup_mem {κ α : Type} [DecidableEq κ] (l : List (κ × α)) (k : κ) (v : α)
    (h : alookup l k = some v) : (k, v) ∈ l := by
  induction l with
  | nil => simp [alookup] at h
  | cons p l ih =>
    by_cases hp : p.1 = k
    · simp [alookup, hp] at h
      subst hp h
      exact List.mem_cons_self _ _
    · simp [alookup, hp] at h
      exact List.mem_cons_of_mem p (ih h)

theorem alookup_isSome_iff_mem {κ α : Type} [DecidableEq κ] (l : List (κ × α)) (k : κ) :
    (alookup l k).isSome ↔ k ∈ l.map Prod.fst := by
  induction l with
  | nil => simp [alookup]
  | cons p l ih =>
    by_cases hp : p.1 = k <;> simp [alookup, hp, ih]
    exact fun h => (hp h.symm).elim

theorem alookup_of_mem_nodup {κ α : Type} [DecidableEq κ] (l : List (κ × α)) (k : κ) (v : α)
    (hnd : (l.map Prod.fst).Nodup) (h : (k, v) ∈ l) : alookup l k = some v := by
  induction l with
  | nil => simp at h
  | cons p l ih =>
    rw [List.map_cons, List.nodup_cons] at hnd
    rcases List.mem_cons.mp h with h1 | h1
    · subst h1
      simp [alookup]
    · have hk : p.1 ≠ k := by
        intro he
        exact hnd.1 (he ▸ List.mem_map_of_mem Prod.fst h1)
      simp [alookup, hk]
      exact ih hnd.2 h1

/-! ## Toolkit: state-component lemmas for the mutators -/

theorem alookup_map_update_ne {κ α : Type} [DecidableEq κ] (l : List (κ × α)) (i : κ)
    (f : α → α) (j : κ) (hji : j ≠ i) :
    alookup (l.map fun p => if p.1 = i then (p.1, f p.2) else p) j = alookup l j := by
  induction l with
  | nil => rfl
  | cons p l ih =>
    by_cases hpi : p.1 = i
    · have hpj : p.1 ≠ j := fun h => hji (h ▸ hpi)
      simp [alookup, hpi, hpj, Ne.symm hji, ih]
    · by_cases hpj : p.1 = j
      · simp [alookup, hpi, hpj, hji]
      · simp [alookup, hpi, hpj, ih]

theorem alookup_map_update_self {κ α : Type} [DecidableEq κ] (l : List (κ × α)) (i : κ)
    (f : α → α) :
    alookup (l.map fun p => if p.1 = i then (p.1, f p.2) else p) i = (alookup l i).map f := by
  induction l with
  | nil => rfl
  | cons p l ih =>
    by_cases hpi : p.1 = i
    · simp [alookup, hpi]
    · simp [alookup, hpi, ih]

theorem alookup_updateNode (s : GState) (i : Nat) (f : NodeD → NodeD) (j : Nat) :
    alookup (updateNode s i f).nodes j =
      if j = i then (alookup s.nodes i).map f else alookup s.nodes j := by
  by_cases h : j = i
  · subst h
    simp [updateNode, alookup_map_update_self]
  · simp [updateNode, alookup_map_update_ne s.nodes i f j h, h]

theorem updateNode_keys (s : GState) (i : Nat) (f : NodeD → NodeD) :
    (updateNode s i f).nodes.map Prod.fst = s.nodes.map Prod.fst := by
  show (s.nodes.map fun p => if p.1 = i then (p.1, f p.2) else p).map Prod.fst = _
  simp only [List.map_map]
  apply List.map_congr_left
  intro p _
  by_cases h : p.1 = i <;> simp [h]

theorem updateNode_edges (s : GState) (i : Nat) (f : NodeD → NodeD) :
    (updateNode s i f).edges = s.edges := rfl

theorem updateNode_nodesMap (s : GState) (i : Nat) (f : NodeD → NodeD) :
    (updateNode s i f).nodesMap = s.nodesMap := rfl

theorem updateNode_selected (s : GState) (i : Nat) (f : NodeD → NodeD) :
    (updateNode s i f).selected = s.selected := rfl

theorem nameOf_updateNode (s : GState) (i : Nat) (f : NodeD → NodeD)
    (hf : ∀ n, (f n).name = n.name) (j : Nat) :
    nameOf (updateNode s i f) j = nameOf s j := by
  unfold nameOf
  rw [alookup_updateNode]
  by_cases h : j = i
  · subst h
    cases alookup s.nodes j with
    | none => simp
    | some n => simp [hf]
  · simp [h]

theorem pairOf_updateNode (s : GState) (i : Nat) (f : NodeD → NodeD)
    (hf : ∀ n, (f n).name = n.name) (e : Nat) :
    pairOf (updateNode s i f) e = pairOf s e := by
  unfold pairOf
  rw [updateNode_edges]
  cases alookup s.edges e with
  | none => rfl
  | some ed => simp [nameOf_updateNode s i f hf]

theorem edgeList_updateNode_ne (s : GState) (i : Nat) (f : NodeD → NodeD) (j : Nat)
    (h : j ≠ i) : edgeList (updateNode s i f) j = edgeList s j := by
  unfold edgeList
  rw [alookup_updateNode]
  simp [h]

theorem edgeList_pushEdge_self (s : GState) (i : Nat) (e : Nat)
    (h : (alookup s.nodes i).isSome) :
    edgeList (pushEdge s i e) i = edgeList s i ++ [e] := by
  unfold edgeList pushEdge
  rw [alookup_updateNode]
  cases hl : alookup s.nodes i with
  | none => rw [hl] at h; simp at h
  | some n => simp

theorem edgeList_pushEdge_ne (s : GState) (i : Nat) (e : Nat) (j : Nat) (h : j ≠ i) :
    edgeList (pushEdge s i e) j = edgeList s j :=
  edgeList_updateNode_ne s i _ j h

theorem pairOf_pushEdge (s : GState) (i : Nat) (e k : Nat) :
    pairOf (pushEdge s i e) k = pairOf s k :=
  pairOf_updateNode s i (fun n => { n with edges := n.edges ++ [e] }) (fun _ => rfl) k

theorem nameOf_pushEdge (s : GState) (i : Nat) (e j : Nat) :
    nameOf (pushEdge s i e) j = nameOf s j :=
  nameOf_updateNode s i (fun n => { n with edges := n.edges ++ [e] }) (fun _ => rfl) j

theorem allocEdge_nodes (s : GState) (a b : Nat) : (allocEdge s a b).nodes = s.nodes := rfl

theorem nameOf_allocEdge (s : GState) (a b j : Nat) : nameOf (allocEdge s a b) j = nameOf s j := rfl

theorem edgeList_allocEdge (s : GState) (a b j : Nat) :
    edgeList (allocEdge s a b) j = edgeList s j := rfl

theorem alookup_allocEdge_self (s : GState) (a b : Nat)
    (hfresh : ∀ p ∈ s.edges, p.1 ≠ s.nextE) :
    alookup (allocEdge s a b).edges s.nextE = some ⟨a, b⟩ :=
  alookup_append_fresh s.edges (s.nextE, ⟨a, b⟩) hfresh

theorem alookup_allocEdge_ne (s : GState) (a b k : Nat) (h : k ≠ s.nextE) :
    alookup (allocEdge s a b).edges k = alookup s.edges k :=
  alookup_append_ne s.edges (s.nextE, ⟨a, b⟩) k (fun he => h he.symm)

theorem pairOf_allocEdge_ne (s : GState) (a b k : Nat) (h : k ≠ s.nextE) :
    pairOf (allocEdge s a b) k = pairOf s k := by
  unfold pairOf
  rw [alookup_allocEdge_ne s a b k h]
  rfl

theorem pairOf_allocEdge_self (s : GState) (a b : Nat)
    (hfresh : ∀ p ∈ s.edges, p.1 ≠ s.nextE) :
    pairOf (allocEdge s a b) s.nextE = (nameOf s a, nameOf s b) := by
  unfold pairOf
  rw [alookup_allocEdge_self s a b hfresh]
  rfl

theorem pushEdge_edges (s : GState) (i e : Nat) : (pushEdge s i e).edges = s.edges := rfl

theorem pushEdge_nodesMap (s : GState) (i e : Nat) : (pushEdge s i e).nodesMap = s.nodesMap := rfl

theorem pushEdge_selected (s : GState) (i e : Nat) : (pushEdge s i e).selected = s.selected := rfl

theorem pushEdge_nextN (s : GState) (i e : Nat) : (pushEdge s i e).nextN = s.nextN := rfl

theorem pushEdge_nextE (s : GState) (i e : Nat) : (pushEdge s i e).nextE = s.nextE := rfl

theorem pushEdge_keys (s : GState) (i e : Nat) :
    (pushEdge s i e).nodes.map Prod.fst = s.nodes.map Prod.fst :=
  updateNode_keys s i _

/-! ## Characterization of edge registration -/

/-- When the new edge's name pair is listed neither by the registering node
nor by the edge's destination node, `add_edge` appends the edge exactly once
to the registering node's list (through either the empty-list branch or the
guarded branch). -/
theorem add_edge_eq_push (s : GState) (selfId e : Nat) (ed : EdgeD)
    (he : alookup s.edges e = some ed)
    (hself : (alookup s.nodes selfId).isSome)
    (h1 : pairOf s e ∉ (edgeList s selfId).map (pairOf s))
    (h2 : pairOf s e ∉ (edgeList s ed.dst).map (pairOf s)) :
    add_edge s selfId e = pushEdge s selfId e := by
  unfold add_edge
  by_cases hlen : (edgeList s selfId).length = 0
  · have hnil : edgeList s selfId = [] := List.length_eq_zero.mp hlen
    simp only [hlen, if_true, pushEdge_edges, he]
    have hl : edgeList (pushEdge s selfId e) selfId = [e] := by
      rw [edgeList_pushEdge_self s selfId e hself, hnil]
      rfl
    simp [get_edges_eq_map, hl, pairOf_pushEdge]
  · simp only [hlen, if_false]
    simp only [he]
    simp only [get_edges_eq_map]
    simp [h1, h2]

/-- When the registering node's list is non-empty and already lists the new
edge's name pair, `add_edge` leaves the state unchanged. -/
theorem add_edge_eq_self (s : GState) (selfId e : Nat) (ed : EdgeD)
    (he : alookup s.edges e = some ed)
    (hne : (edgeList s selfId).length ≠ 0)
    (hmem : pairOf s e ∈ (edgeList s selfId).map (pairOf s)) :
    add_edge s selfId e = s := by
  unfold add_edge
  simp only [hne, if_false, he]
  simp only [get_edges_eq_map]
  simp [hmem]

/-- The effect of a full `Edge` construction when the ordered name pair of
the new edge is listed by neither endpoint: the edge object is allocated and
appended once to the source's list and once to the destination's list (just
once in total for a self-loop). -/
theorem newEdge_eq (s : GState) (src dst : Nat)
    (hfresh : ∀ p ∈ s.edges, p.1 ≠ s.nextE)
    (hsrc : (alookup s.nodes src).isSome)
    (hdst : (alookup s.nodes dst).isSome)
    (hLsrc : ∀ k ∈ edgeList s src, k ≠ s.nextE)
    (hLdst : ∀ k ∈ edgeList s dst, k ≠ s.nextE)
    (h1 : (nameOf s src, nameOf s dst) ∉ (edgeList s src).map (pairOf s))
    (h2 : (nameOf s src, nameOf s dst) ∉ (edgeList s dst).map (pairOf s)) :
    newEdge s src dst =
      if src = dst then pushEdge (allocEdge s src dst) src s.nextE
      else pushEdge (pushEdge (allocEdge s src dst) src s.nextE) dst s.nextE := by
  have he0 : alookup (allocEdge s src dst).edges s.nextE = some ⟨src, dst⟩ :=
    alookup_allocEdge_self s src dst hfresh
  have hp0 : pairOf (allocEdge s src dst) s.nextE = (nameOf s src, nameOf s dst) :=
    pairOf_allocEdge_self s src dst hfresh
  have hmapsrc : (edgeList (allocEdge s src dst) src).map (pairOf (allocEdge s src dst)) =
      (edgeList s src).map (pairOf s) := by
    rw [edgeList_allocEdge]
    exact List.map_congr_left (fun k hk => pairOf_allocEdge_ne s src dst k (hLsrc k hk))
  have hmapdst : (edgeList (allocEdge s src dst) dst).map (pairOf (allocEdge s src dst)) =
      (edgeList s dst).map (pairOf s) := by
    rw [edgeList_allocEdge]
    exact List.map_congr_left (fun k hk => pairOf_allocEdge_ne s src dst k (hLdst k hk))
  have hstep1 : add_edge (allocEdge s src dst) src s.nextE =
      pushEdge (allocEdge s src dst) src s.nextE := by
    apply add_edge_eq_push (allocEdge s src dst) src s.nextE ⟨src, dst⟩ he0 hsrc
    · rw [hp0, hmapsrc]
      exact h1
    · show _ ∉ (edgeList (allocEdge s src dst) dst).map (pairOf (allocEdge s src dst))
      rw [hp0, hmapdst]
      exact h2
  show add_edge (add_edge (allocEdge s src dst) src s.nextE) dst s.nextE = _
  rw [hstep1]
  have he1 : alookup (pushEdge (allocEdge s src dst) src s.nextE).edges s.nextE =
      some ⟨src, dst⟩ := by
    rw [pushEdge_edges]
    exact he0
  have hl1 : edgeList (pushEdge (allocEdge s src dst) src s.nextE) src =
      edgeList s src ++ [s.nextE] := by
    rw [edgeList_pushEdge_self (allocEdge s src dst) src s.nextE hsrc, edgeList_allocEdge]
  by_cases hsd : src = dst
  · subst hsd
    rw [if_pos rfl]
    apply add_edge_eq_self _ _ _ ⟨src, src⟩ he1
    · rw [hl1]
      simp
    · rw [hl1]
      have hpe : pairOf (pushEdge (allocEdge s src src) src s.nextE) s.nextE =
          (nameOf s src, nameOf s src) := by
        rw [pairOf_pushEdge]
        exact hp0
      exact List.mem_map_of_mem _ (List.mem_append_right _ (List.mem_singleton.mpr rfl))
  · rw [if_neg hsd]
    have hself1 : (alookup (pushEdge (allocEdge s src dst) src s.nextE).nodes dst).isSome := by
      show (alookup (updateNode (allocEdge s src dst) src _).nodes dst).isSome
      rw [alookup_updateNode]
      have hds : dst ≠ src := fun h => hsd h.symm
      rw [if_neg hds]
      exact hdst
    have hl1d : edgeList (pushEdge (allocEdge s src dst) src s.nextE) dst = edgeList s dst := by
      rw [edgeList_pushEdge_ne _ _ _ _ (fun h => hsd h.symm), edgeList_allocEdge]
    have hmd : (edgeList (pushEdge (allocEdge s src dst) src s.nextE) dst).map
        (pairOf (pushEdge (allocEdge s src dst) src s.nextE)) =
        (edgeList s dst).map (pairOf s) := by
      rw [hl1d]
      apply List.map_congr_left
      intro k hk
      rw [pairOf_pushEdge]
      exact pairOf_allocEdge_ne s src dst k (hLdst k hk)
    apply add_edge_eq_push _ _ _ ⟨src, dst⟩ he1 hself1
    · rw [pairOf_pushEdge, hp0, hmd]
      exact h2
    · show _ ∉ (edgeList (pushEdge (allocEdge s src dst) src s.nextE) dst).map _
      rw [pairOf_pushEdge, hp0, hmd]
      exact h2

/-- The preconditions under which a new `Edge` registers cleanly at both
endpoints: fresh edge id, both endpoints live, endpoint lists free of the
fresh id, and the new ordered name pair absent from both endpoints' lists. -/
structure EdgeInsOK (s : GState) (src dst : Nat) : Prop where
  hfresh : ∀ p ∈ s.edges, p.1 ≠ s.nextE
  hsrc : (alookup s.nodes src).isSome
  hdst : (alookup s.nodes dst).isSome
  hLsrc : ∀ k ∈ edgeList s src, k ≠ s.nextE
  hLdst : ∀ k ∈ edgeList s dst, k ≠ s.nextE
  h1 : (nameOf s src, nameOf s dst) ∉ (edgeList s src).map (pairOf s)
  h2 : (nameOf s src, nameOf s dst) ∉ (edgeList s dst).map (pairOf s)

theorem newEdge_eq_ok (s : GState) (src dst : Nat) (h : EdgeInsOK s src dst) :
    newEdge s src dst =
      if src = dst then pushEdge (allocEdge s src dst) src s.nextE
      else pushEdge (pushEdge (allocEdge s src dst) src s.nextE) dst s.nextE :=
  newEdge_eq s src dst h.hfresh h.hsrc h.hdst h.hLsrc h.hLdst h.h1 h.h2

theorem newEdge_edges (s : GState) (src dst : Nat) (h : EdgeInsOK s src dst) :
    (newEdge s src dst).edges = s.edges ++ [(s.nextE, ⟨src, dst⟩)] := by
  rw [newEdge_eq_ok s src dst h]
  by_cases hsd : src = dst <;> simp [hsd, pushEdge_edges, allocEdge]

theorem newEdge_nextE (s : GState) (src dst : Nat) (h : EdgeInsOK s src dst) :
    (newEdge s src dst).nextE = s.nextE + 1 := by
  rw [newEdge_eq_ok s src dst h]
  by_cases hsd : src = dst <;> simp [hsd, pushEdge_nextE, allocEdge]

theorem newEdge_nextN (s : GState) (src dst : Nat) (h : EdgeInsOK s src dst) :
    (newEdge s src dst).nextN = s.nextN := by
  rw [newEdge_eq_ok s src dst h]
  by_cases hsd : src = dst <;> simp [hsd, pushEdge_nextN, allocEdge]

theorem newEdge_nodesMap (s : GState) (src dst : Nat) (h : EdgeInsOK s src dst) :
    (newEdge s src dst).nodesMap = s.nodesMap := by
  rw [newEdge_eq_ok s src dst h]
  by_cases hsd : src = dst <;> simp [hsd, pushEdge_nodesMap, allocEdge]

theorem newEdge_selected (s : GState) (src dst : Nat) (h : EdgeInsOK s src dst) :
    (newEdge s src dst).selected = s.selected := by
  rw [newEdge_eq_ok s src dst h]
  by_cases hsd : src = dst <;> simp [hsd, pushEdge_selected, allocEdge]

theorem newEdge_keys (s : GState) (src dst : Nat) (h : EdgeInsOK s src dst) :
    (newEdge s src dst).nodes.map Prod.fst = s.nodes.map Prod.fst := by
  rw [newEdge_eq_ok s src dst h]
  by_cases hsd : src = dst <;> simp [hsd, pushEdge_keys, allocEdge_nodes]

theorem newEdge_lookup_nodes (s : GState) (src dst : Nat) (h : EdgeInsOK s src dst) (j : Nat) :
    alookup (newEdge s src dst).nodes j =
      if j = src ∨ j = dst then
        (alookup s.nodes j).map (fun n => { n with edges := n.edges ++ [s.nextE] })
      else alookup s.nodes j := by
  rw [newEdge_eq_ok s src dst h]
  by_cases hsd : src = dst
  · subst hsd
    rw [if_pos rfl]
    show alookup (updateNode (allocEdge s src src) src _).nodes j = _
    rw [alookup_updateNode]
    by_cases hj : j = src
    · subst hj
      rw [if_pos rfl, if_pos (Or.inl rfl)]
      rfl
    · rw [if_neg hj, if_neg (show ¬ (j = src ∨ j = src) from fun hor => hor.elim hj hj)]
      rfl
  · rw [if_neg hsd]
    show alookup (updateNode (updateNode (allocEdge s src dst) src _) dst _).nodes j = _
    rw [alookup_updateNode]
    by_cases hjd : j = dst
    · subst hjd
      rw [if_pos rfl, alookup_updateNode]
      rw [if_neg (show ¬ j = src from fun hh => hsd hh.symm), if_pos (Or.inr rfl)]
      rfl
    · rw [if_neg hjd, alookup_updateNode]
      by_cases hjs : j = src
      · subst hjs
        rw [if_pos rfl, if_pos (Or.inl rfl)]
        rfl
      · rw [if_neg hjs, if_neg (show ¬ (j = src ∨ j = dst) from fun hor => hor.elim hjs hjd)]
        rfl

theorem edgeList_newEdge (s : GState) (src dst : Nat) (h : EdgeInsOK s src dst) (j : Nat) :
    edgeList (newEdge s src dst) j =
      if j = src ∨ j = dst then edgeList s j ++ [s.nextE] else edgeList s j := by
  unfold edgeList
  rw [newEdge_lookup_nodes s src dst h j]
  by_cases hj : j = src ∨ j = dst
  · rw [if_pos hj, if_pos hj]
    have hs : (alookup s.nodes j).isSome := by
      rcases hj with hh | hh
      · rw [hh]; exact h.hsrc
      · rw [hh]; exact h.hdst
    cases hl : alookup s.nodes j with
    | none => rw [hl] at hs; simp at hs
    | some n => simp
  · rw [if_neg hj, if_neg hj]

theorem nameOf_newEdge (s : GState) (src dst : Nat) (h : EdgeInsOK s src dst) (j : Nat) :
    nameOf (newEdge s src dst) j = nameOf s j := by
  unfold nameOf
  rw [newEdge_lookup_nodes s src dst h j]
  by_cases hj : j = src ∨ j = dst
  · rw [if_pos hj]
    cases alookup s.nodes j <;> simp
  · rw [if_neg hj]

theorem pairOf_newEdge_ne (s : GState) (src dst : Nat) (h : EdgeInsOK s src dst) (k : Nat)
    (hk : k ≠ s.nextE) : pairOf (newEdge s src dst) k = pairOf s k := by
  have hedges : alookup (newEdge s src dst).edges k = alookup s.edges k := by
    rw [newEdge_edges s src dst h]
    exact alookup_append_ne s.edges _ k (fun he => hk he.symm)
  unfold pairOf
  rw [hedges]
  cases hl : alookup s.edges k with
  | none => rfl
  | some ed => simp [nameOf_newEdge s src dst h]

theorem pairOf_newEdge_self (s : GState) (src dst : Nat) (h : EdgeInsOK s src dst) :
    pairOf (newEdge s src dst) s.nextE = (nameOf s src, nameOf s dst) := by
  have hedges : alookup (newEdge s src dst).edges s.nextE = some ⟨src, dst⟩ := by
    rw [newEdge_edges s src dst h]
    exact alookup_append_fresh s.edges _ h.hfresh
  unfold pairOf
  rw [hedges]
  simp [nameOf_newEdge s src dst h]

/-! ## Characterization of edge removal -/

theorem pyForRemove_nomatch (p : Nat → Bool) :
    ∀ l : List Nat, (∀ x ∈ l, p x = false) → pyForRemove p l = l
  | [], _ => rfl
  | [x], h => by simp [pyForRemove, h x (by simp)]
  | x :: y :: ys, h => by
    have hx : p x = false := h x (by simp)
    have hrest : ∀ z ∈ y :: ys, p z = false := fun z hz => h z (List.mem_cons_of_mem x hz)
    simp [pyForRemove, hx, pyForRemove_nomatch p (y :: ys) hrest]

theorem pyForRemove_congr (p q : Nat → Bool) :
    ∀ l : List Nat, (∀ x ∈ l, p x = q x) → pyForRemove p l = pyForRemove q l
  | [], _ => rfl
  | [x], h => by simp [pyForRemove, h x (by simp)]
  | x :: y :: ys, h => by
    have hx : p x = q x := h x (by simp)
    have hys : ∀ z ∈ ys, p z = q z :=
      fun z hz => h z (List.mem_cons_of_mem x (List.mem_cons_of_mem y hz))
    have hyys : ∀ z ∈ y :: ys, p z = q z := fun z hz => h z (List.mem_cons_of_mem x hz)
    by_cases hqx : q x = true
    · simp [pyForRemove, hx, hqx, pyForRemove_congr p q ys hys]
    · simp only [Bool.not_eq_true] at hqx
      simp [pyForRemove, hx, hqx, pyForRemove_congr p q (y :: ys) hyys]

theorem pyForRemove_single (p : Nat → Bool) :
    ∀ l : List Nat, l.countP p ≤ 1 → pyForRemove p l = l.filter (fun x => !p x)
  | [], _ => rfl
  | [x], _ => by by_cases hx : p x = true <;> simp [pyForRemove, hx]
  | x :: y :: ys, h => by
    by_cases hx : p x = true
    · have h0 : (y :: ys).countP p = 0 := by
        rw [List.countP_cons_of_pos p (y :: ys) hx] at h
        omega
      have hall : ∀ z ∈ y :: ys, p z = false := by
        intro z hz
        by_contra hpz
        have hz1 : 0 < (y :: ys).countP p :=
          List.countP_pos_iff.mpr ⟨z, hz, by simpa using hpz⟩
        omega
      have hy : p y = false := hall y (by simp)
      have hys : ∀ z ∈ ys, p z = false := fun z hz => hall z (List.mem_cons_of_mem y hz)
      rw [show pyForRemove p (x :: y :: ys) = y :: pyForRemove p ys by simp [pyForRemove, hx]]
      rw [pyForRemove_nomatch p ys hys]
      simp [List.filter, hx, hy]
      exact (List.filter_eq_self.mpr (fun z hz => by simp [hys z hz])).symm
    · simp only [Bool.not_eq_true] at hx
      have h1 : (y :: ys).countP p ≤ 1 := by
        rw [List.countP_cons_of_neg p (y :: ys) (by simp [hx])] at h
        exact h
      rw [show pyForRemove p (x :: y :: ys) = x :: pyForRemove p (y :: ys) by
        simp [pyForRemove, hx]]
      rw [pyForRemove_single p (y :: ys) h1]
      simp [List.filter, hx]

theorem del_edge_eq_update (s : GState) (selfId e : Nat) (ed : EdgeD)
    (he : alookup s.edges e = some ed) :
    del_edge s selfId e =
      updateNode s selfId (fun n => { n with edges := pyForRemove (matchEnds s ed) n.edges }) := by
  unfold del_edge
  rw [he]

theorem del_edge_edges (s : GState) (selfId e : Nat) :
    (del_edge s selfId e).edges = s.edges := by
  unfold del_edge
  cases alookup s.edges e <;> rfl

/-! ## The structural well-formedness invariant -/

/-- The structural invariant maintained by the interaction state machine and
the import path along I3-disciplined runs: unique object ids, counters ahead
of all allocated ids, live edge endpoints, symmetric registration (every live
edge is in both endpoints' lists), edge lists that mention only live edges
touching their node, duplicate-free edge lists, pairwise-distinct ordered
name pairs among live edges, and a live selection. -/
structure WF (s : GState) : Prop where
  nodesKeys : (s.nodes.map Prod.fst).Nodup
  edgesKeys : (s.edges.map Prod.fst).Nodup
  nodesFresh : ∀ k ∈ s.nodes.map Prod.fst, k < s.nextN
  edgesFresh : ∀ k ∈ s.edges.map Prod.fst, k < s.nextE
  endsLive : ∀ p ∈ s.edges, (alookup s.nodes p.2.src).isSome ∧ (alookup s.nodes p.2.dst).isSome
  sym : ∀ p ∈ s.edges, p.1 ∈ edgeList s p.2.src ∧ p.1 ∈ edgeList s p.2.dst
  listsLive : ∀ q ∈ s.nodes, ∀ e ∈ q.2.edges,
    ∃ ed, alookup s.edges e = some ed ∧ (ed.src = q.1 ∨ ed.dst = q.1)
  listsNodup : ∀ q ∈ s.nodes, q.2.edges.Nodup
  pairsNodup : (s.edges.map (fun p => pairOf s p.1)).Nodup
  selLive : ∀ a, s.selected = some a → (alookup s.nodes a).isSome

theorem edgeList_eq_of_alookup (s : GState) (j : Nat) (n : NodeD)
    (h : alookup s.nodes j = some n) : edgeList s j = n.edges := by
  unfold edgeList
  rw [h]
  rfl

theorem WF.edgeList_live (h : WF s) (j : Nat) :
    ∀ e ∈ edgeList s j, ∃ ed, alookup s.edges e = some ed ∧ (ed.src = j ∨ ed.dst = j) := by
  intro e he
  unfold edgeList at he
  cases hl : alookup s.nodes j with
  | none => rw [hl] at he; simp at he
  | some n =>
    rw [hl] at he
    simp at he
    have hmem : (j, n) ∈ s.nodes := alookup_mem s.nodes j n hl
    exact h.listsLive (j, n) hmem e he

theorem WF.edgeList_nodup (h : WF s) (j : Nat) : (edgeList s j).Nodup := by
  unfold edgeList
  cases hl : alookup s.nodes j with
  | none => simp
  | some n =>
    simp
    exact h.listsNodup (j, n) (alookup_mem s.nodes j n hl)

theorem WF.edgeList_lt_nextE (h : WF s) (j : Nat) : ∀ e ∈ edgeList s j, e < s.nextE := by
  intro e he
  obtain ⟨ed, hed, _⟩ := h.edgeList_live j e he
  exact h.edgesFresh e (List.mem_map_of_mem Prod.fst (alookup_mem s.edges e ed hed))

theorem nodup_countP_beq_le_one (e0 : Nat) :
    ∀ l : List Nat, l.Nodup → l.countP (fun k => k == e0) ≤ 1 := by
  intro l hl
  induction l with
  | nil => simp
  | cons x xs ih =>
    rw [List.nodup_cons] at hl
    by_cases hx : x = e0
    · subst hx
      rw [List.countP_cons_of_pos _ xs (by simp)]
      have h0 : xs.countP (fun k => k == x) = 0 := by
        rw [List.countP_eq_zero]
        intro z hz
        simp
        intro hzx
        exact hl.1 (hzx ▸ hz)
      omega
    · rw [List.countP_cons_of_neg _ xs (by simp [hx])]
      exact ih hl.2

theorem matchEnds_char (s : GState) (h : WF s) (e0 : Nat) (ed0 : EdgeD)
    (he : alookup s.edges e0 = some ed0) (j : Nat) :
    ∀ k ∈ edgeList s j, matchEnds s ed0 k = (k == e0) := by
  intro k hk
  obtain ⟨kd, hkd, _⟩ := h.edgeList_live j k hk
  unfold matchEnds
  rw [hkd]
  by_cases hke : k = e0
  · subst hke
    rw [he] at hkd
    cases hkd
    simp
  · have hne : ¬ (kd.src = ed0.src ∧ kd.dst = ed0.dst) := by
      rintro ⟨h1, h2⟩
      have hpeq : pairOf s k = pairOf s e0 := by
        unfold pairOf
        rw [hkd, he]
        show (nameOf s kd.src, nameOf s kd.dst) = (nameOf s ed0.src, nameOf s ed0.dst)
        rw [h1, h2]
      have hkmem : (k, kd) ∈ s.edges := alookup_mem s.edges k kd hkd
      have hemem : (e0, ed0) ∈ s.edges := alookup_mem s.edges e0 ed0 he
      have := List.inj_on_of_nodup_map h.pairsNodup hkmem hemem (by simpa using hpeq)
      exact hke (congrArg Prod.fst this)
    simp [hne, hke]

theorem edgeList_updateNode_listmap (s : GState) (i : Nat) (g : List Nat → List Nat)
    (hg : g [] = []) :
    edgeList (updateNode s i (fun n => { n with edges := g n.edges })) i = g (edgeList s i) := by
  unfold edgeList
  rw [alookup_updateNode, if_pos rfl]
  cases alookup s.nodes i with
  | none => simpa using hg.symm
  | some n => rfl

theorem edgeList_del_edge_gen (s : GState) (e0 : Nat) (ed0 : EdgeD)
    (he : alookup s.edges e0 = some ed0) (selfId : Nat)
    (hchar : ∀ k ∈ edgeList s selfId, matchEnds s ed0 k = (k == e0))
    (hcount : (edgeList s selfId).countP (fun k => k == e0) ≤ 1) (j : Nat) :
    edgeList (del_edge s selfId e0) j =
      if j = selfId then (edgeList s selfId).filter (fun k => !(k == e0))
      else edgeList s j := by
  rw [del_edge_eq_update s selfId e0 ed0 he]
  by_cases hj : j = selfId
  · subst hj
    rw [if_pos rfl]
    rw [edgeList_updateNode_listmap s j (pyForRemove (matchEnds s ed0)) rfl]
    rw [pyForRemove_congr _ _ (edgeList s j) hchar]
    exact pyForRemove_single _ _ hcount
  · rw [if_neg hj]
    exact edgeList_updateNode_ne s selfId _ j hj

theorem alookup_filter_ne_key {α : Type} (l : List (Nat × α)) (e k : Nat) (hk : k ≠ e) :
    alookup (l.filter (fun p => decide (p.1 ≠ e))) k = alookup l k := by
  induction l with
  | nil => rfl
  | cons p l ih =>
    by_cases hpe : p.1 = e
    · have hpk : p.1 ≠ k := fun hh => hk (hh ▸ hpe)
      rw [List.filter_cons_of_neg (by simp [hpe]), ih]
      show _ = if p.1 = k then some p.2 else alookup l k
      rw [if_neg hpk]
    · rw [List.filter_cons_of_pos (by simp [hpe])]
      show (if p.1 = k then some p.2 else alookup (l.filter _) k) =
        if p.1 = k then some p.2 else alookup l k
      rw [ih]

theorem alookup_filter_self {α : Type} (l : List (Nat × α)) (e : Nat) :
    alookup (l.filter (fun p => decide (p.1 ≠ e))) e = none := by
  induction l with
  | nil => rfl
  | cons p l ih =>
    by_cases hpe : p.1 = e
    · rw [List.filter_cons_of_neg (by simp [hpe]), ih]
    · rw [List.filter_cons_of_pos (by simp [hpe])]
      show (if p.1 = e then some p.2 else alookup (l.filter _) e) = none
      rw [if_neg hpe, ih]

theorem del_edge_nodesMap (s : GState) (i e : Nat) : (del_edge s i e).nodesMap = s.nodesMap := by
  unfold del_edge
  cases alookup s.edges e <;> rfl

theorem del_edge_selected (s : GState) (i e : Nat) : (del_edge s i e).selected = s.selected := by
  unfold del_edge
  cases alookup s.edges e <;> rfl

theorem del_edge_nextN (s : GState) (i e : Nat) : (del_edge s i e).nextN = s.nextN := by
  unfold del_edge
  cases alookup s.edges e <;> rfl

theorem del_edge_nextE (s : GState) (i e : Nat) : (del_edge s i e).nextE = s.nextE := by
  unfold del_edge
  cases alookup s.edges e <;> rfl

theorem del_edge_keys (s : GState) (i e : Nat) :
    (del_edge s i e).nodes.map Prod.fst = s.nodes.map Prod.fst := by
  unfold del_edge
  cases alookup s.edges e with
  | none => rfl
  | some ed => exact updateNode_keys s i _

theorem del_edge_nameOf (s : GState) (i e j : Nat) : nameOf (del_edge s i e) j = nameOf s j := by
  unfold del_edge
  cases alookup s.edges e with
  | none => rfl
  | some ed =>
    exact nameOf_updateNode s i
      (fun n => { n with edges := pyForRemove (matchEnds s ed) n.edges }) (fun _ => rfl) j

theorem edgeDelete_edges (s : GState) (e : Nat) : (edgeDelete s e).edges = s.edges := by
  unfold edgeDelete
  cases alookup s.edges e with
  | none => rfl
  | some ed => rw [del_edge_edges, del_edge_edges]

theorem edgeDelete_nameOf (s : GState) (e j : Nat) : nameOf (edgeDelete s e) j = nameOf s j := by
  unfold edgeDelete
  cases alookup s.edges e with
  | none => rfl
  | some ed => rw [del_edge_nameOf, del_edge_nameOf]

theorem edgeDelete_keys (s : GState) (e : Nat) :
    (edgeDelete s e).nodes.map Prod.fst = s.nodes.map Prod.fst := by
  unfold edgeDelete
  cases alookup s.edges e with
  | none => rfl
  | some ed => rw [del_edge_keys, del_edge_keys]

theorem edgeDelete_nodesMap (s : GState) (e : Nat) :
    (edgeDelete s e).nodesMap = s.nodesMap := by
  unfold edgeDelete
  cases alookup s.edges e with
  | none => rfl
  | some ed => rw [del_edge_nodesMap, del_edge_nodesMap]

theorem edgeDelete_nextN (s : GState) (e : Nat) : (edgeDelete s e).nextN = s.nextN := by
  unfold edgeDelete
  cases alookup s.edges e with
  | none => rfl
  | some ed => rw [del_edge_nextN, del_edge_nextN]

theorem edgeDelete_nextE (s : GState) (e : Nat) : (edgeDelete s e).nextE = s.nextE := by
  unfold edgeDelete
  cases alookup s.edges e with
  | none => rfl
  | some ed => rw [del_edge_nextE, del_edge_nextE]

theorem edgeDelete_selected (s : GState) (e : Nat) : (edgeDelete s e).selected = s.selected := by
  unfold edgeDelete
  cases alookup s.edges e with
  | none => rfl
  | some ed => rw [del_edge_selected, del_edge_selected]

/-- The edge lists after `Edge.delete`: the deleted edge disappears from both
endpoints' lists, every other list is untouched. -/
theorem edgeList_edgeDelete (s : GState) (h : WF s) (e0 a0 b0 : Nat)
    (he : alookup s.edges e0 = some ⟨a0, b0⟩) (j : Nat) :
    edgeList (edgeDelete s e0) j =
      if j = a0 ∨ j = b0 then (edgeList s j).filter (fun k => !(k == e0))
      else edgeList s j := by
  unfold edgeDelete
  rw [he]
  show edgeList (del_edge (del_edge s a0 e0) b0 e0) j = _
  have hchar1 := matchEnds_char s h e0 ⟨a0, b0⟩ he a0
  have hcount1 : (edgeList s a0).countP (fun k => k == e0) ≤ 1 :=
    nodup_countP_beq_le_one e0 _ (h.edgeList_nodup a0)
  have hstep1 := edgeList_del_edge_gen s e0 ⟨a0, b0⟩ he a0 hchar1 hcount1
  have he1 : alookup (del_edge s a0 e0).edges e0 = some ⟨a0, b0⟩ := by
    rw [del_edge_edges]
    exact he
  have hme : matchEnds (del_edge s a0 e0) (⟨a0, b0⟩ : EdgeD) = matchEnds s ⟨a0, b0⟩ := by
    funext k
    unfold matchEnds
    rw [del_edge_edges]
  have hsub : ∀ k, k ∈ edgeList (del_edge s a0 e0) b0 → k ∈ edgeList s b0 := by
    intro k hk
    rw [hstep1 b0] at hk
    by_cases hba : b0 = a0
    · subst hba
      rw [if_pos rfl] at hk
      exact List.mem_of_mem_filter hk
    · rw [if_neg hba] at hk
      exact hk
  have hchar2 : ∀ k ∈ edgeList (del_edge s a0 e0) b0,
      matchEnds (del_edge s a0 e0) (⟨a0, b0⟩ : EdgeD) k = (k == e0) := by
    intro k hk
    rw [hme]
    exact matchEnds_char s h e0 ⟨a0, b0⟩ he b0 k (hsub k hk)
  have hnd2 : (edgeList (del_edge s a0 e0) b0).Nodup := by
    rw [hstep1 b0]
    by_cases hba : b0 = a0
    · subst hba
      rw [if_pos rfl]
      exact (h.edgeList_nodup b0).filter _
    · rw [if_neg hba]
      exact h.edgeList_nodup b0
  have hcount2 : (edgeList (del_edge s a0 e0) b0).countP (fun k => k == e0) ≤ 1 :=
    nodup_countP_beq_le_one e0 _ hnd2
  have hstep2 := edgeList_del_edge_gen (del_edge s a0 e0) e0 ⟨a0, b0⟩ he1 b0 hchar2 hcount2 j
  rw [hstep2]
  by_cases hjb : j = b0
  · subst hjb
    rw [if_pos rfl, if_pos (Or.inr rfl), hstep1 j]
    by_cases hja : j = a0
    · subst hja
      rw [if_pos rfl]
      exact List.filter_eq_self.mpr
        (fun a ha => @List.of_mem_filter _ (fun k => !(k == e0)) a (edgeList s j) ha)
    · rw [if_neg hja]
  · rw [if_neg hjb]
    by_cases hja : j = a0
    · subst hja
      rw [hstep1 j, if_pos rfl, if_pos (Or.inl rfl)]
    · rw [hstep1 j, if_neg hja, if_neg (fun hor => hor.elim hja hjb)]

theorem alookup_append_left {κ α : Type} [DecidableEq κ] (l m : List (κ × α)) (k : κ) (v : α)
    (h : alookup l k = some v) : alookup (l ++ m) k = some v := by
  rw [alookup_append, h]

theorem forall_entries_of_edgeList (s : GState) (hk : (s.nodes.map Prod.fst).Nodup)
    (P : Nat → Nat → Prop) (h : ∀ j, ∀ e ∈ edgeList s j, P j e) :
    ∀ q ∈ s.nodes, ∀ e ∈ q.2.edges, P q.1 e := by
  intro q hq e he
  have hq2 : (q.1, q.2) ∈ s.nodes := by rw [Prod.mk.eta]; exact hq
  have hl : alookup s.nodes q.1 = some q.2 := alookup_of_mem_nodup s.nodes q.1 q.2 hk hq2
  exact h q.1 e (by rw [edgeList_eq_of_alookup s q.1 q.2 hl]; exact he)

theorem entries_nodup_of_edgeList (s : GState) (hk : (s.nodes.map Prod.fst).Nodup)
    (h : ∀ j, (edgeList s j).Nodup) : ∀ q ∈ s.nodes, q.2.edges.Nodup := by
  intro q hq
  have hq2 : (q.1, q.2) ∈ s.nodes := by rw [Prod.mk.eta]; exact hq
  have hl : alookup s.nodes q.1 = some q.2 := alookup_of_mem_nodup s.nodes q.1 q.2 hk hq2
  have := h q.1
  rw [edgeList_eq_of_alookup s q.1 q.2 hl] at this
  exact this

/-- The invariant is preserved by a full `Edge` construction whose ordered
name pair is not carried by any live edge. -/
theorem WF_newEdge (s : GState) (src dst : Nat) (h : WF s)
    (hsrc : (alookup s.nodes src).isSome) (hdst : (alookup s.nodes dst).isSome)
    (hglobal : (nameOf s src, nameOf s dst) ∉ s.edges.map (fun p => pairOf s p.1)) :
    EdgeInsOK s src dst ∧ WF (newEdge s src dst) := by
  have hfresh : ∀ p ∈ s.edges, p.1 ≠ s.nextE :=
    fun p hp => Nat.ne_of_lt (h.edgesFresh p.1 (List.mem_map_of_mem Prod.fst hp))
  have hlpair : ∀ j, ∀ q ∈ (edgeList s j).map (pairOf s),
      q ∈ s.edges.map (fun p => pairOf s p.1) := by
    intro j q hq
    obtain ⟨k, hk, hpk⟩ := List.mem_map.mp hq
    obtain ⟨kd, hkd, _⟩ := h.edgeList_live j k hk
    subst hpk
    exact List.mem_map_of_mem _ (alookup_mem s.edges k kd hkd)
  have hok : EdgeInsOK s src dst :=
    { hfresh := hfresh
      hsrc := hsrc
      hdst := hdst
      hLsrc := fun k hk => Nat.ne_of_lt (h.edgeList_lt_nextE src k hk)
      hLdst := fun k hk => Nat.ne_of_lt (h.edgeList_lt_nextE dst k hk)
      h1 := fun hmem => hglobal (hlpair src _ hmem)
      h2 := fun hmem => hglobal (hlpair dst _ hmem) }
  refine ⟨hok, ?_⟩
  have hkeys := newEdge_keys s src dst hok
  have hedges := newEdge_edges s src dst hok
  have hEkeys : (newEdge s src dst).edges.map Prod.fst =
      s.edges.map Prod.fst ++ [s.nextE] := by
    rw [hedges, List.map_append]
    rfl
  have hlook : ∀ k ed, alookup s.edges k = some ed →
      alookup (newEdge s src dst).edges k = some ed := by
    intro k ed hk
    rw [hedges]
    exact alookup_append_left s.edges _ k ed hk
  have hlooknew : alookup (newEdge s src dst).edges s.nextE = some ⟨src, dst⟩ := by
    rw [hedges]
    exact alookup_append_fresh s.edges _ hfresh
  have hsomeiff : ∀ j, (alookup (newEdge s src dst).nodes j).isSome ↔
      (alookup s.nodes j).isSome := by
    intro j
    rw [alookup_isSome_iff_mem, alookup_isSome_iff_mem, hkeys]
  constructor
  case nodesKeys => rw [hkeys]; exact h.nodesKeys
  case edgesKeys =>
    rw [hEkeys]
    refine (List.nodup_append).mpr ⟨h.edgesKeys, List.nodup_singleton _, ?_⟩
    intro a ha hb
    rw [List.mem_singleton] at hb
    exact Nat.ne_of_lt (h.edgesFresh a ha) hb
  case nodesFresh =>
    rw [hkeys, newEdge_nextN s src dst hok]
    exact h.nodesFresh
  case edgesFresh =>
    rw [hEkeys, newEdge_nextE s src dst hok]
    intro k hk
    rcases List.mem_append.mp hk with hk | hk
    · exact Nat.lt_succ_of_lt (h.edgesFresh k hk)
    · rw [List.mem_singleton] at hk
      subst hk
      exact Nat.lt_succ_self _
  case endsLive =>
    intro p hp
    rw [hedges] at hp
    rcases List.mem_append.mp hp with hp | hp
    · obtain ⟨hl, hr⟩ := h.endsLive p hp
      exact ⟨(hsomeiff _).mpr hl, (hsomeiff _).mpr hr⟩
    · rw [List.mem_singleton] at hp
      subst hp
      exact ⟨(hsomeiff _).mpr hsrc, (hsomeiff _).mpr hdst⟩
  case sym =>
    intro p hp
    rw [hedges] at hp
    rcases List.mem_append.mp hp with hp | hp
    · obtain ⟨hl, hr⟩ := h.sym p hp
      constructor
      · rw [edgeList_newEdge s src dst hok]
        by_cases hc : p.2.src = src ∨ p.2.src = dst
        · rw [if_pos hc]
          exact List.mem_append_left _ hl
        · rw [if_neg hc]
          exact hl
      · rw [edgeList_newEdge s src dst hok]
        by_cases hc : p.2.dst = src ∨ p.2.dst = dst
        · rw [if_pos hc]
          exact List.mem_append_left _ hr
        · rw [if_neg hc]
          exact hr
    · rw [List.mem_singleton] at hp
      subst hp
      constructor
      · rw [edgeList_newEdge s src dst hok, if_pos (Or.inl rfl)]
        exact List.mem_append_right _ (List.mem_singleton.mpr rfl)
      · rw [edgeList_newEdge s src dst hok, if_pos (Or.inr rfl)]
        exact List.mem_append_right _ (List.mem_singleton.mpr rfl)
  case listsLive =>
    apply forall_entries_of_edgeList (newEdge s src dst) (by rw [hkeys]; exact h.nodesKeys)
      (fun j e => ∃ ed, alookup (newEdge s src dst).edges e = some ed ∧
        (ed.src = j ∨ ed.dst = j))
    intro j e he
    rw [edgeList_newEdge s src dst hok] at he
    by_cases hc : j = src ∨ j = dst
    · rw [if_pos hc] at he
      rcases List.mem_append.mp he with he | he
      · obtain ⟨ed, hed, hside⟩ := h.edgeList_live j e he
        exact ⟨ed, hlook e ed hed, hside⟩
      · rw [List.mem_singleton] at he
        subst he
        refine ⟨⟨src, dst⟩, hlooknew, ?_⟩
        rcases hc with hc | hc
        · exact Or.inl hc.symm
        · exact Or.inr hc.symm
    · rw [if_neg hc] at he
      obtain ⟨ed, hed, hside⟩ := h.edgeList_live j e he
      exact ⟨ed, hlook e ed hed, hside⟩
  case listsNodup =>
    apply entries_nodup_of_edgeList _ (by rw [hkeys]; exact h.nodesKeys)
    intro j
    rw [edgeList_newEdge s src dst hok]
    by_cases hc : j = src ∨ j = dst
    · rw [if_pos hc]
      refine (List.nodup_append).mpr ⟨h.edgeList_nodup j, List.nodup_singleton _, ?_⟩
      intro a ha hb
      rw [List.mem_singleton] at hb
      exact Nat.ne_of_lt (h.edgeList_lt_nextE j a ha) hb
    · rw [if_neg hc]
      exact h.edgeList_nodup j
  case pairsNodup =>
    have hmapeq : (newEdge s src dst).edges.map (fun p => pairOf (newEdge s src dst) p.1) =
        s.edges.map (fun p => pairOf s p.1) ++ [(nameOf s src, nameOf s dst)] := by
      rw [hedges, List.map_append]
      congr 1
      · apply List.map_congr_left
        intro p hp
        exact pairOf_newEdge_ne s src dst hok p.1 (hfresh p hp)
      · show [pairOf (newEdge s src dst) s.nextE] = _
        rw [pairOf_newEdge_self s src dst hok]
    rw [hmapeq]
    refine (List.nodup_append).mpr ⟨h.pairsNodup, List.nodup_singleton _, ?_⟩
    intro a ha hb
    rw [List.mem_singleton] at hb
    subst hb
    exact hglobal ha
  case selLive =>
    intro a ha
    rw [newEdge_selected s src dst hok] at ha
    exact (hsomeiff a).mpr (h.selLive a ha)

theorem removeEdgeItem_nodes (s : GState) (e : Nat) : (removeEdgeItem s e).nodes = s.nodes := rfl

theorem removeEdgeItem_edges (s : GState) (e : Nat) :
    (removeEdgeItem s e).edges = s.edges.filter (fun p => decide (p.1 ≠ e)) := rfl

theorem removeEdgeItem_edgeList (s : GState) (e j : Nat) :
    edgeList (removeEdgeItem s e) j = edgeList s j := rfl

theorem removeEdgeItem_nameOf (s : GState) (e j : Nat) :
    nameOf (removeEdgeItem s e) j = nameOf s j := rfl

/-- The state the delete branch of the click handler leaves behind, before
the selection reset: `edg.delete()` then `scene().removeItem(edg)`. -/
theorem WF_deleteStep (s : GState) (h : WF s) (e0 a0 b0 : Nat)
    (he : alookup s.edges e0 = some ⟨a0, b0⟩) :
    WF (removeEdgeItem (edgeDelete s e0) e0) := by
  set t := removeEdgeItem (edgeDelete s e0) e0 with ht
  have htedges : t.edges = s.edges.filter (fun p => decide (p.1 ≠ e0)) := by
    rw [ht, removeEdgeItem_edges, edgeDelete_edges]
  have htkeys : t.nodes.map Prod.fst = s.nodes.map Prod.fst := by
    rw [ht, removeEdgeItem_nodes, edgeDelete_keys]
  have htlist : ∀ j, edgeList t j =
      if j = a0 ∨ j = b0 then (edgeList s j).filter (fun k => !(k == e0))
      else edgeList s j := by
    intro j
    rw [ht, removeEdgeItem_edgeList]
    exact edgeList_edgeDelete s h e0 a0 b0 he j
  have htname : ∀ j, nameOf t j = nameOf s j := by
    intro j
    rw [ht, removeEdgeItem_nameOf, edgeDelete_nameOf]
  have htlook : ∀ k, k ≠ e0 → alookup t.edges k = alookup s.edges k := by
    intro k hk
    rw [htedges]
    exact alookup_filter_ne_key s.edges e0 k hk
  have htpair : ∀ k, k ≠ e0 → pairOf t k = pairOf s k := by
    intro k hk
    unfold pairOf
    rw [htlook k hk]
    cases alookup s.edges k with
    | none => rfl
    | some kd => simp [htname]
  have htnextN : t.nextN = s.nextN := by
    rw [ht]
    show (edgeDelete s e0).nextN = s.nextN
    exact edgeDelete_nextN s e0
  have htnextE : t.nextE = s.nextE := by
    rw [ht]
    show (edgeDelete s e0).nextE = s.nextE
    exact edgeDelete_nextE s e0
  have htsel : t.selected = s.selected := by
    rw [ht]
    show (edgeDelete s e0).selected = s.selected
    exact edgeDelete_selected s e0
  have hsomeiff : ∀ j, (alookup t.nodes j).isSome ↔ (alookup s.nodes j).isSome := by
    intro j
    rw [alookup_isSome_iff_mem, alookup_isSome_iff_mem, htkeys]
  have hmemfilter : ∀ p, p ∈ t.edges → p ∈ s.edges ∧ p.1 ≠ e0 := by
    intro p hp
    rw [htedges] at hp
    exact ⟨List.mem_of_mem_filter hp, by simpa using List.of_mem_filter hp⟩
  constructor
  case nodesKeys => rw [htkeys]; exact h.nodesKeys
  case edgesKeys =>
    rw [htedges]
    exact ((List.filter_sublist s.edges).map Prod.fst).nodup h.edgesKeys
  case nodesFresh => rw [htkeys, htnextN]; exact h.nodesFresh
  case edgesFresh =>
    rw [htedges, htnextE]
    intro k hk
    obtain ⟨p, hp, hpk⟩ := List.mem_map.mp hk
    exact h.edgesFresh k
      (hpk ▸ List.mem_map_of_mem Prod.fst (List.mem_of_mem_filter hp))
  case endsLive =>
    intro p hp
    obtain ⟨hps, _⟩ := hmemfilter p hp
    obtain ⟨hl, hr⟩ := h.endsLive p hps
    exact ⟨(hsomeiff _).mpr hl, (hsomeiff _).mpr hr⟩
  case sym =>
    intro p hp
    obtain ⟨hps, hpne⟩ := hmemfilter p hp
    obtain ⟨hl, hr⟩ := h.sym p hps
    constructor
    · rw [htlist]
      by_cases hc : p.2.src = a0 ∨ p.2.src = b0
      · rw [if_pos hc]
        exact List.mem_filter.mpr ⟨hl, by simp [hpne]⟩
      · rw [if_neg hc]
        exact hl
    · rw [htlist]
      by_cases hc : p.2.dst = a0 ∨ p.2.dst = b0
      · rw [if_pos hc]
        exact List.mem_filter.mpr ⟨hr, by simp [hpne]⟩
      · rw [if_neg hc]
        exact hr
  case listsLive =>
    apply forall_entries_of_edgeList t (by rw [htkeys]; exact h.nodesKeys)
      (fun j e => ∃ ed, alookup t.edges e = some ed ∧ (ed.src = j ∨ ed.dst = j))
    intro j e he2
    rw [htlist] at he2
    by_cases hc : j = a0 ∨ j = b0
    · rw [if_pos hc] at he2
      have hmem := List.mem_of_mem_filter he2
      have hne : e ≠ e0 := by simpa using @List.of_mem_filter _ _ e _ he2
      obtain ⟨ed, hed, hside⟩ := h.edgeList_live j e hmem
      exact ⟨ed, by rw [htlook e hne]; exact hed, hside⟩
    · rw [if_neg hc] at he2
      obtain ⟨ed, hed, hside⟩ := h.edgeList_live j e he2
      have hne : e ≠ e0 := by
        intro hee
        subst hee
        rw [he] at hed
        cases hed
        rcases hside with hh | hh
        · exact hc (Or.inl hh.symm)
        · exact hc (Or.inr hh.symm)
      exact ⟨ed, by rw [htlook e hne]; exact hed, hside⟩
  case listsNodup =>
    apply entries_nodup_of_edgeList t (by rw [htkeys]; exact h.nodesKeys)
    intro j
    rw [htlist]
    by_cases hc : j = a0 ∨ j = b0
    · rw [if_pos hc]
      exact (h.edgeList_nodup j).filter _
    · rw [if_neg hc]
      exact h.edgeList_nodup j
  case pairsNodup =>
    have hmapeq : t.edges.map (fun p => pairOf t p.1) = t.edges.map (fun p => pairOf s p.1) := by
      apply List.map_congr_left
      intro p hp
      exact htpair p.1 (hmemfilter p hp).2
    rw [hmapeq, htedges]
    exact ((List.filter_sublist s.edges).map _).nodup h.pairsNodup
  case selLive =>
    intro a ha
    rw [htsel] at ha
    exact (hsomeiff a).mpr (h.selLive a ha)

/-- Appending a fresh node with an empty edge list (interactive creation and
the import's node-building loop) preserves the invariant, whatever happens to
the name index and — as long as it stays live or points at the new node —
the selection. -/
theorem WF_appendNode (s : GState) (n : NodeD) (m : List (String × Nat)) (sel : Option Nat)
    (hn : n.edges = []) (h : WF s)
    (hsel : ∀ a, sel = some a → (alookup s.nodes a).isSome ∨ a = s.nextN) :
    WF { s with nodes := s.nodes ++ [(s.nextN, n)], nodesMap := m, selected := sel,
                nextN := s.nextN + 1 } := by
  set t : GState := { s with nodes := s.nodes ++ [(s.nextN, n)], nodesMap := m,
                             selected := sel, nextN := s.nextN + 1 } with htdef
  have hkeyfresh : ∀ p ∈ s.nodes, p.1 ≠ s.nextN :=
    fun p hp => Nat.ne_of_lt (h.nodesFresh p.1 (List.mem_map_of_mem Prod.fst hp))
  have hlookOld : ∀ j v, alookup s.nodes j = some v → alookup t.nodes j = some v := by
    intro j v hj
    show alookup (s.nodes ++ [(s.nextN, n)]) j = some v
    exact alookup_append_left s.nodes _ j v hj
  have hlookNew : alookup t.nodes s.nextN = some n := by
    show alookup (s.nodes ++ [(s.nextN, n)]) s.nextN = some n
    exact alookup_append_fresh s.nodes (s.nextN, n) hkeyfresh
  have hkeys : t.nodes.map Prod.fst = s.nodes.map Prod.fst ++ [s.nextN] := by
    show (s.nodes ++ [(s.nextN, n)]).map Prod.fst = _
    rw [List.map_append]
    rfl
  have hedgeList : ∀ j, edgeList t j = edgeList s j := by
    intro j
    unfold edgeList
    cases hj : alookup s.nodes j with
    | some v => rw [hlookOld j v hj]
    | none =>
      by_cases hjn : j = s.nextN
      · subst hjn
        rw [hlookNew]
        simp [hn]
      · have hnone : alookup t.nodes j = none := by
          show alookup (s.nodes ++ [(s.nextN, n)]) j = none
          rw [alookup_append_ne s.nodes (s.nextN, n) j (fun hh => hjn hh.symm), hj]
        rw [hnone]
  have hsome : ∀ j, (alookup s.nodes j).isSome → (alookup t.nodes j).isSome := by
    intro j hj
    cases hjv : alookup s.nodes j with
    | none => rw [hjv] at hj; simp at hj
    | some v => rw [hlookOld j v hjv]; rfl
  have hnameOld : ∀ j, (alookup s.nodes j).isSome → nameOf t j = nameOf s j := by
    intro j hj
    cases hjv : alookup s.nodes j with
    | none => rw [hjv] at hj; simp at hj
    | some v =>
      unfold nameOf
      rw [hlookOld j v hjv, hjv]
  have hpair : ∀ p ∈ s.edges, pairOf t p.1 = pairOf s p.1 := by
    intro p hp
    have hp2 : (p.1, p.2) ∈ s.edges := by rw [Prod.mk.eta]; exact hp
    have hk : alookup s.edges p.1 = some p.2 :=
      alookup_of_mem_nodup s.edges p.1 p.2 h.edgesKeys hp2
    have hke : alookup t.edges p.1 = some p.2 := hk
    obtain ⟨hl, hr⟩ := h.endsLive p hp
    unfold pairOf
    rw [hke]
    show (nameOf t p.2.src, nameOf t p.2.dst) = (nameOf s p.2.src, nameOf s p.2.dst)
    rw [hnameOld _ hl, hnameOld _ hr]
  constructor
  case nodesKeys =>
    rw [hkeys]
    refine (List.nodup_append).mpr ⟨h.nodesKeys, List.nodup_singleton _, ?_⟩
    intro a ha hb
    rw [List.mem_singleton] at hb
    exact Nat.ne_of_lt (h.nodesFresh a ha) hb
  case edgesKeys => exact h.edgesKeys
  case nodesFresh =>
    rw [hkeys]
    show ∀ k ∈ _, k < s.nextN + 1
    intro k hk
    rcases List.mem_append.mp hk with hk | hk
    · exact Nat.lt_succ_of_lt (h.nodesFresh k hk)
    · rw [List.mem_singleton] at hk
      subst hk
      exact Nat.lt_succ_self _
  case edgesFresh => exact h.edgesFresh
  case endsLive =>
    intro p hp
    obtain ⟨hl, hr⟩ := h.endsLive p hp
    exact ⟨hsome _ hl, hsome _ hr⟩
  case sym =>
    intro p hp
    rw [hedgeList, hedgeList]
    exact h.sym p hp
  case listsLive =>
    intro q hq e he
    rcases List.mem_append.mp hq with hq | hq
    · exact h.listsLive q hq e he
    · rw [List.mem_singleton] at hq
      subst hq
      rw [hn] at he
      simp at he
  case listsNodup =>
    intro q hq
    rcases List.mem_append.mp hq with hq | hq
    · exact h.listsNodup q hq
    · rw [List.mem_singleton] at hq
      subst hq
      rw [hn]
      exact List.nodup_nil
  case pairsNodup =>
    have hmapeq : t.edges.map (fun p => pairOf t p.1) = s.edges.map (fun p => pairOf s p.1) :=
      List.map_congr_left hpair
    rw [hmapeq]
    exact h.pairsNodup
  case selLive =>
    intro a ha
    rcases hsel a ha with hh | hh
    · exact hsome a hh
    · subst hh
      rw [hlookNew]
      rfl

/-! ## Branch equations for the primary-click handler -/

theorem pc_empty (s : GState) (p : Int × Int) :
    primaryClick s (.empty p) =
      { s with selected := none,
               nodes := s.nodes ++
                 [(s.nextN, setPosition (newNodeDefaults (toString (s.nodes.length + 1))) p)],
               nextN := s.nextN + 1 } := rfl

theorem pc_onNode_dead (s : GState) (i : Nat) (hi : alookup s.nodes i = none) :
    primaryClick s (.onNode i) = s := by
  simp only [primaryClick]
  rw [hi]

theorem pc_onNode_select (s : GState) (i : Nat) (ni : NodeD)
    (hi : alookup s.nodes i = some ni) (hsel : s.selected = none) :
    primaryClick s (.onNode i) = { s with selected := some i } := by
  simp only [primaryClick]
  rw [hi, hsel]

theorem pc_onNode_same (s : GState) (i : Nat) (ni : NodeD)
    (hi : alookup s.nodes i = some ni) (a : Nat) (hsel : s.selected = some a) (hai : a = i) :
    primaryClick s (.onNode i) = s := by
  simp only [primaryClick]
  rw [hi, hsel]
  show (if a = i then s else _) = s
  rw [if_pos hai]

theorem pc_onNode_create_nil (s : GState) (i : Nat) (ni : NodeD)
    (hi : alookup s.nodes i = some ni) (a : Nat) (hsel : s.selected = some a) (hai : ¬ a = i)
    (hsh : sharedEdges s a i = []) :
    primaryClick s (.onNode i) = { newEdge s a i with selected := none } := by
  simp only [primaryClick]
  rw [hi, hsel]
  show (if a = i then s else _) = _
  rw [if_neg hai, hsh]

theorem pc_onNode_create_fresh (s : GState) (i : Nat) (ni : NodeD)
    (hi : alookup s.nodes i = some ni) (a : Nat) (hsel : s.selected = some a) (hai : ¬ a = i)
    (e0 : Nat) (rest : List Nat) (hsh : sharedEdges s a i = e0 :: rest)
    (hpair : (nameOf s a, nameOf s i) ∉ ((e0 :: rest).map (pairOf s))) :
    primaryClick s (.onNode i) = { newEdge s a i with selected := none } := by
  simp only [primaryClick]
  rw [hi, hsel]
  show (if a = i then s else _) = _
  rw [if_neg hai, hsh]
  show (if (nameOf s a, nameOf s i) ∉ ((e0 :: rest).map (pairOf s)) then _ else _) = _
  rw [if_pos hpair]

theorem pc_onNode_delete (s : GState) (i : Nat) (ni : NodeD)
    (hi : alookup s.nodes i = some ni) (a : Nat) (hsel : s.selected = some a) (hai : ¬ a = i)
    (e0 : Nat) (rest : List Nat) (hsh : sharedEdges s a i = e0 :: rest)
    (hpair : ¬ (nameOf s a, nameOf s i) ∉ ((e0 :: rest).map (pairOf s))) :
    primaryClick s (.onNode i) =
      { removeEdgeItem (edgeDelete s e0) e0 with selected := none } := by
  simp only [primaryClick]
  rw [hi, hsel]
  show (if a = i then s else _) = _
  rw [if_neg hai, hsh]
  show (if (nameOf s a, nameOf s i) ∉ ((e0 :: rest).map (pairOf s)) then _ else _) = _
  rw [if_neg hpair]

theorem WF_withSelected (x : GState) (h : WF x) (sel : Option Nat)
    (hsel : ∀ a, sel = some a → (alookup x.nodes a).isSome) : WF { x with selected := sel } :=
  { nodesKeys := h.nodesKeys
    edgesKeys := h.edgesKeys
    nodesFresh := h.nodesFresh
    edgesFresh := h.edgesFresh
    endsLive := h.endsLive
    sym := h.sym
    listsLive := h.listsLive
    listsNodup := h.listsNodup
    pairsNodup := h.pairsNodup
    selLive := hsel }

/-! ## Name injectivity and the freshness of a created pair -/

theorem names_inj (s : GState) (hnd : namesNodup s) :
    ∀ p ∈ s.nodes, ∀ q ∈ s.nodes, p.2.name = q.2.name → p = q := by
  intro p hp q hq hname
  exact List.inj_on_of_nodup_map hnd hp hq hname

theorem node_id_of_name (s : GState) (hnd : namesNodup s) (j : Nat) (nj : NodeD)
    (hj : alookup s.nodes j = some nj) (x : Nat)
    (hx : (alookup s.nodes x).isSome) (hname : nameOf s x = nj.name) : x = j := by
  cases hxv : alookup s.nodes x with
  | none => rw [hxv] at hx; simp at hx
  | some nx =>
    have hnx : nx.name = nj.name := by
      unfold nameOf at hname
      rw [hxv] at hname
      exact hname
    have heq := names_inj s hnd (x, nx) (alookup_mem s.nodes x nx hxv)
      (j, nj) (alookup_mem s.nodes j nj hj) hnx
    exact congrArg Prod.fst heq

/-- In the create branches of the click handler, the new ordered pair is not
carried by any live edge: a live edge with that pair would, by symmetry and
name uniqueness, be a shared edge with exactly that pair — contradicting the
branch condition. -/
theorem pairFresh_of_branch (s : GState) (h : WF s) (hnd : namesNodup s)
    (a i : Nat) (na ni : NodeD)
    (ha : alookup s.nodes a = some na) (hi : alookup s.nodes i = some ni)
    (hbranch : ∀ k ∈ sharedEdges s a i, pairOf s k ≠ (nameOf s a, nameOf s i)) :
    (nameOf s a, nameOf s i) ∉ s.edges.map (fun p => pairOf s p.1) := by
  intro hmem
  obtain ⟨p, hp, hpeq⟩ := List.mem_map.mp hmem
  have hp2 : (p.1, p.2) ∈ s.edges := by rw [Prod.mk.eta]; exact hp
  have hk : alookup s.edges p.1 = some p.2 :=
    alookup_of_mem_nodup s.edges p.1 p.2 h.edgesKeys hp2
  have hpair : pairOf s p.1 = (nameOf s p.2.src, nameOf s p.2.dst) := by
    unfold pairOf
    rw [hk]
  obtain ⟨hsl, hsr⟩ := h.endsLive p hp
  rw [hpair] at hpeq
  have hnamea : nameOf s p.2.src = na.name := by
    have := congrArg Prod.fst hpeq
    simp at this
    rw [this]
    unfold nameOf
    rw [ha]
    rfl
  have hnamei : nameOf s p.2.dst = ni.name := by
    have := congrArg Prod.snd hpeq
    simp at this
    rw [this]
    unfold nameOf
    rw [hi]
    rfl
  have hsrc : p.2.src = a := node_id_of_name s hnd a na ha p.2.src hsl hnamea
  have hdst : p.2.dst = i := node_id_of_name s hnd i ni hi p.2.dst hsr hnamei
  obtain ⟨hmema, hmemi⟩ := h.sym p hp
  rw [hsrc] at hmema
  rw [hdst] at hmemi
  have hshared : p.1 ∈ sharedEdges s a i := by
    unfold sharedEdges
    exact List.mem_filter.mpr ⟨hmema, by simpa using hmemi⟩
  exact hbranch p.1 hshared (by rw [hpair, hpeq])

/-- The invariant is preserved by every primary activation, along runs whose
live node names stay pairwise distinct. -/
theorem primaryClick_WF (s : GState) (t : ClickTarget) (h : WF s) (hnd : namesNodup s) :
    WF (primaryClick s t) := by
  cases t with
  | onEdge e => exact h
  | empty p =>
    rw [pc_empty]
    exact WF_appendNode s _ s.nodesMap none rfl h (fun a ha => by cases ha)
  | onNode i =>
    cases hi : alookup s.nodes i with
    | none =>
      rw [pc_onNode_dead s i hi]
      exact h
    | some ni =>
      cases hsel : s.selected with
      | none =>
        rw [pc_onNode_select s i ni hi hsel]
        refine WF_withSelected s h (some i) ?_
        intro a2 ha2
        injection ha2 with hh
        subst hh
        rw [hi]
        rfl
      | some a =>
        by_cases hai : a = i
        · rw [pc_onNode_same s i ni hi a hsel hai]
          exact h
        · have hsome_a : (alookup s.nodes a).isSome := h.selLive a hsel
          cases ha : alookup s.nodes a with
          | none => rw [ha] at hsome_a; simp at hsome_a
          | some na =>
            cases hsh : sharedEdges s a i with
            | nil =>
              rw [pc_onNode_create_nil s i ni hi a hsel hai hsh]
              have hglobal := pairFresh_of_branch s h hnd a i na ni ha hi
                (fun k hk => by rw [hsh] at hk; cases hk)
              obtain ⟨hok, hwf⟩ :=
                WF_newEdge s a i h (by rw [ha]; rfl) (by rw [hi]; rfl) hglobal
              exact WF_withSelected _ hwf none (fun x hx => by cases hx)
            | cons e0 rest =>
              by_cases hpair : (nameOf s a, nameOf s i) ∉ ((e0 :: rest).map (pairOf s))
              · rw [pc_onNode_create_fresh s i ni hi a hsel hai e0 rest hsh hpair]
                have hglobal := pairFresh_of_branch s h hnd a i na ni ha hi
                  (fun k hk hpk => hpair (by
                    rw [hsh] at hk
                    exact hpk ▸ List.mem_map_of_mem (pairOf s) hk))
                obtain ⟨hok, hwf⟩ :=
                  WF_newEdge s a i h (by rw [ha]; rfl) (by rw [hi]; rfl) hglobal
                exact WF_withSelected _ hwf none (fun x hx => by cases hx)
              · rw [pc_onNode_delete s i ni hi a hsel hai e0 rest hsh hpair]
                have he0mem : e0 ∈ edgeList s a := by
                  have hm : e0 ∈ sharedEdges s a i := by
                    rw [hsh]
                    exact List.mem_cons_self _ _
                  exact List.mem_of_mem_filter hm
                obtain ⟨ed0, hed0, _⟩ := h.edgeList_live a e0 he0mem
                have hwf := WF_deleteStep s h e0 ed0.src ed0.dst hed0
                exact WF_withSelected _ hwf none (fun x hx => by cases hx)

theorem middleClick_cases (s : GState) (t : ClickTarget) :
    middleClick s t = s ∨ middleClick s t = { s with selected := none } := by
  cases t with
  | empty p => exact Or.inl rfl
  | onEdge e => exact Or.inl rfl
  | onNode i =>
    simp only [middleClick]
    cases hli : alookup s.nodes i with
    | none => exact Or.inl rfl
    | some ni =>
      cases hsel : s.selected with
      | none => exact Or.inl rfl
      | some a =>
        by_cases hai : a = i
        · refine Or.inr ?_
          show (if a = i then { s with selected := none } else s) = _
          rw [if_pos hai]
        · refine Or.inl ?_
          show (if a = i then { s with selected := none } else s) = _
          rw [if_neg hai]

theorem middleClick_WF (s : GState) (t : ClickTarget) (h : WF s) : WF (middleClick s t) := by
  rcases middleClick_cases s t with hc | hc <;> rw [hc]
  · exact h
  · exact WF_withSelected s h none (fun x hx => by cases hx)

theorem WF_initState : WF initState :=
  { nodesKeys := List.nodup_nil
    edgesKeys := List.nodup_nil
    nodesFresh := fun k hk => by cases hk
    edgesFresh := fun k hk => by cases hk
    endsLive := fun p hp => by cases hp
    sym := fun p hp => by cases hp
    listsLive := fun q hq => by cases hq
    listsNodup := fun q hq => by cases hq
    pairsNodup := List.nodup_nil
    selLive := fun a ha => by cases ha }

theorem namesNodup_initState : namesNodup initState := List.nodup_nil

theorem namesNodup_middleClick (s : GState) (t : ClickTarget) (h : namesNodup s) :
    namesNodup (middleClick s t) := by
  rcases middleClick_cases s t with hc | hc <;> rw [hc] <;> exact h

/-! ## Characterization of the import path -/

/-- The Node built for one document record by the import's first loop. -/
def recNode (r : NodeRec) : NodeD :=
  { name := r.name, textcolor := r.textcolor, color := r.color, mdata := r.mdata,
    pos := r.pos, radius := 30, edges := [] }

/-- The scene entries the first loop appends, with consecutive fresh ids. -/
def mkNodes : Nat → List NodeRec → List (Nat × NodeD)
  | _, [] => []
  | i, r :: rs => (i, recNode r) :: mkNodes (i + 1) rs

/-- The `_nodes_map` contents after the first loop. -/
def mkMap : List (String × Nat) → Nat → List NodeRec → List (String × Nat)
  | m, _, [] => m
  | m, i, r :: rs => mkMap (dictInsert m r.name i) (i + 1) rs

/-- The running `edge_map` after the first loop. -/
def emFold (acc : List (String × String)) : List NodeRec → List (String × String)
  | [] => acc
  | r :: rs =>
    emFold (r.edges.foldl (fun em e => if e ∈ em then em else em ++ [e]) acc) rs

theorem loadNodes_eq : ∀ (doc : List NodeRec) (s : GState) (acc : List (String × String)),
    doc.foldl loadNodeStep (s, acc) =
      ({ s with nodes := s.nodes ++ mkNodes s.nextN doc,
                nodesMap := mkMap s.nodesMap s.nextN doc,
                nextN := s.nextN + doc.length }, emFold acc doc) := by
  intro doc
  induction doc with
  | nil =>
    intro s acc
    show (s, acc) = _
    simp [mkNodes, mkMap, emFold]
  | cons r rs ih =>
    intro s acc
    show rs.foldl loadNodeStep (loadNodeStep (s, acc) r) = _
    rw [show loadNodeStep (s, acc) r =
      ({ s with nodes := s.nodes ++ [(s.nextN, recNode r)],
                nodesMap := dictInsert s.nodesMap r.name s.nextN,
                nextN := s.nextN + 1 },
        r.edges.foldl (fun em e => if e ∈ em then em else em ++ [e]) acc) from rfl]
    rw [ih _ _]
    show (_, _) = (_, _)
    rw [Prod.mk.injEq]
    constructor
    · show ({ nodes := (s.nodes ++ [(s.nextN, recNode r)]) ++ mkNodes (s.nextN + 1) rs,
              edges := s.edges,
              nodesMap := mkMap (dictInsert s.nodesMap r.name s.nextN) (s.nextN + 1) rs,
              selected := s.selected, nextN := s.nextN + 1 + rs.length,
              nextE := s.nextE } : GState) = _
      show _ = ({ nodes := s.nodes ++ mkNodes s.nextN (r :: rs), edges := s.edges,
                  nodesMap := mkMap s.nodesMap s.nextN (r :: rs), selected := s.selected,
                  nextN := s.nextN + (r :: rs).length, nextE := s.nextE } : GState)
      rw [show mkNodes s.nextN (r :: rs) = (s.nextN, recNode r) :: mkNodes (s.nextN + 1) rs
          from rfl]
      rw [show mkMap s.nodesMap s.nextN (r :: rs) =
          mkMap (dictInsert s.nodesMap r.name s.nextN) (s.nextN + 1) rs from rfl]
      rw [List.append_assoc]
      rw [show ([(s.nextN, recNode r)] ++ mkNodes (s.nextN + 1) rs) =
          (s.nextN, recNode r) :: mkNodes (s.nextN + 1) rs from rfl]
      rw [show (r :: rs).length = rs.length + 1 from rfl]
      rw [show s.nextN + 1 + rs.length = s.nextN + (rs.length + 1) by omega]
    · rfl

theorem mkNodes_bounds : ∀ (doc : List NodeRec) (i : Nat),
    ∀ p ∈ mkNodes i doc, i ≤ p.1 ∧ p.1 < i + doc.length := by
  intro doc
  induction doc with
  | nil => intro i p hp; cases hp
  | cons r rs ih =>
    intro i p hp
    rw [show mkNodes i (r :: rs) = (i, recNode r) :: mkNodes (i + 1) rs from rfl] at hp
    rcases List.mem_cons.mp hp with hp | hp
    · subst hp
      constructor
      · exact Nat.le_refl i
      · show i < i + (rs.length + 1)
        omega
    · obtain ⟨h1, h2⟩ := ih (i + 1) p hp
      constructor
      · omega
      · show p.1 < i + (rs.length + 1)
        omega

theorem mkNodes_keys_nodup : ∀ (doc : List NodeRec) (i : Nat),
    ((mkNodes i doc).map Prod.fst).Nodup := by
  intro doc
  induction doc with
  | nil => intro i; exact List.nodup_nil
  | cons r rs ih =>
    intro i
    rw [show mkNodes i (r :: rs) = (i, recNode r) :: mkNodes (i + 1) rs from rfl]
    rw [List.map_cons, List.nodup_cons]
    constructor
    · intro hmem
      obtain ⟨p, hp, hpk⟩ := List.mem_map.mp hmem
      obtain ⟨h1, _⟩ := mkNodes_bounds rs (i + 1) p hp
      omega
    · exact ih (i + 1)

theorem firstSeenStep_nodup :
    ∀ (l : List (String × String)) (acc : List (String × String)), acc.Nodup →
      (l.foldl (fun em e => if e ∈ em then em else em ++ [e]) acc).Nodup := by
  intro l
  induction l with
  | nil => intro acc h; exact h
  | cons x xs ih =>
    intro acc h
    show (xs.foldl _ (if x ∈ acc then acc else acc ++ [x])).Nodup
    by_cases hx : x ∈ acc
    · rw [if_pos hx]
      exact ih acc h
    · rw [if_neg hx]
      refine ih _ ((List.nodup_append).mpr ⟨h, List.nodup_singleton _, ?_⟩)
      intro a ha hb
      rw [List.mem_singleton] at hb
      subst hb
      exact hx ha

theorem firstSeenStep_mem :
    ∀ (l : List (String × String)) (acc : List (String × String)) (x : String × String),
      (x ∈ l.foldl (fun em e => if e ∈ em then em else em ++ [e]) acc) ↔ (x ∈ acc ∨ x ∈ l) := by
  intro l
  induction l with
  | nil => intro acc x; simp
  | cons y ys ih =>
    intro acc x
    show (x ∈ ys.foldl _ (if y ∈ acc then acc else acc ++ [y])) ↔ _
    by_cases hy : y ∈ acc
    · rw [if_pos hy, ih]
      constructor
      · rintro (hx | hx)
        · exact Or.inl hx
        · exact Or.inr (List.mem_cons_of_mem y hx)
      · rintro (hx | hx)
        · exact Or.inl hx
        · rcases List.mem_cons.mp hx with hx | hx
          · exact Or.inl (hx ▸ hy)
          · exact Or.inr hx
    · rw [if_neg hy, ih]
      constructor
      · rintro (hx | hx)
        · rcases List.mem_append.mp hx with hx | hx
          · exact Or.inl hx
          · rw [List.mem_singleton] at hx
            exact Or.inr (hx ▸ List.mem_cons_self y ys)
        · exact Or.inr (List.mem_cons_of_mem y hx)
      · rintro (hx | hx)
        · exact Or.inl (List.mem_append_left _ hx)
        · rcases List.mem_cons.mp hx with hx | hx
          · exact Or.inl (List.mem_append_right _ (List.mem_singleton.mpr hx))
          · exact Or.inr hx

theorem emFold_nodup : ∀ (doc : List NodeRec) (acc : List (String × String)),
    acc.Nodup → (emFold acc doc).Nodup := by
  intro doc
  induction doc with
  | nil => intro acc h; exact h
  | cons r rs ih =>
    intro acc h
    exact ih _ (firstSeenStep_nodup r.edges acc h)

theorem emFold_mem : ∀ (doc : List NodeRec) (acc : List (String × String)) (x : String × String),
    x ∈ emFold acc doc ↔ x ∈ acc ∨ ∃ r ∈ doc, x ∈ r.edges := by
  intro doc
  induction doc with
  | nil =>
    intro acc x
    simp [emFold]
  | cons r rs ih =>
    intro acc x
    rw [show emFold acc (r :: rs) =
      emFold (r.edges.foldl (fun em e => if e ∈ em then em else em ++ [e]) acc) rs from rfl]
    rw [ih, firstSeenStep_mem]
    constructor
    · rintro ((hx | hx) | ⟨r2, hr2, hx⟩)
      · exact Or.inl hx
      · exact Or.inr ⟨r, List.mem_cons_self r rs, hx⟩
      · exact Or.inr ⟨r2, List.mem_cons_of_mem r hr2, hx⟩
    · rintro (hx | ⟨r2, hr2, hx⟩)
      · exact Or.inl (Or.inl hx)
      · rcases List.mem_cons.mp hr2 with hr2 | hr2
        · subst hr2
          exact Or.inl (Or.inr hx)
        · exact Or.inr ⟨r2, hr2, hx⟩

theorem newEdge_pairs (s : GState) (src dst : Nat) (h : EdgeInsOK s src dst) :
    (newEdge s src dst).edges.map (fun p => pairOf (newEdge s src dst) p.1) =
      s.edges.map (fun p => pairOf s p.1) ++ [(nameOf s src, nameOf s dst)] := by
  rw [newEdge_edges s src dst h, List.map_append]
  congr 1
  · apply List.map_congr_left
    intro p hp
    exact pairOf_newEdge_ne s src dst h p.1 (h.hfresh p hp)
  · show [pairOf (newEdge s src dst) s.nextE] = _
    rw [pairOf_newEdge_self s src dst h]

theorem mem_dictInsert : ∀ (m : List (String × Nat)) (k : String) (v : Nat),
    ∀ p ∈ dictInsert m k v, p ∈ m ∨ p = (k, v) := by
  intro m k v
  induction m with
  | nil =>
    intro p hp
    rw [show dictInsert [] k v = [(k, v)] from rfl, List.mem_singleton] at hp
    exact Or.inr hp
  | cons q m ih =>
    intro p hp
    by_cases hq : q.1 = k
    · rw [show dictInsert (q :: m) k v = (k, v) :: m from by
        show (if q.1 = k then (k, v) :: m else q :: dictInsert m k v) = _
        rw [if_pos hq]] at hp
      rcases List.mem_cons.mp hp with hp | hp
      · exact Or.inr hp
      · exact Or.inl (List.mem_cons_of_mem q hp)
    · rw [show dictInsert (q :: m) k v = q :: dictInsert m k v from by
        show (if q.1 = k then (k, v) :: m else q :: dictInsert m k v) = _
        rw [if_neg hq]] at hp
      rcases List.mem_cons.mp hp with hp | hp
      · exact Or.inl (hp ▸ List.mem_cons_self q m)
      · rcases ih p hp with hh | hh
        · exact Or.inl (List.mem_cons_of_mem q hh)
        · exact Or.inr hh

theorem mkMap_ok : ∀ (doc : List NodeRec) (m : List (String × Nat))
    (nodes : List (Nat × NodeD)) (i : Nat),
    (∀ p ∈ m, ∃ n, alookup nodes p.2 = some n ∧ n.name = p.1) →
    (∀ p ∈ m, p.2 < i) →
    (∀ p ∈ nodes, p.1 < i) →
    ∀ p ∈ mkMap m i doc,
      ∃ n, alookup (nodes ++ mkNodes i doc) p.2 = some n ∧ n.name = p.1 := by
  intro doc
  induction doc with
  | nil =>
    intro m nodes i h1 _ _ p hp
    rw [show mkMap m i [] = m from rfl] at hp
    obtain ⟨n, hn, hname⟩ := h1 p hp
    refine ⟨n, ?_, hname⟩
    rw [show mkNodes i [] = [] from rfl, List.append_nil]
    exact hn
  | cons r rs ih =>
    intro m nodes i h1 h2 h3 p hp
    rw [show mkMap m i (r :: rs) = mkMap (dictInsert m r.name i) (i + 1) rs from rfl] at hp
    have hinv1 : ∀ q ∈ dictInsert m r.name i,
        ∃ n, alookup (nodes ++ [(i, recNode r)]) q.2 = some n ∧ n.name = q.1 := by
      intro q hq
      rcases mem_dictInsert m r.name i q hq with hq | hq
      · obtain ⟨n, hn, hname⟩ := h1 q hq
        exact ⟨n, alookup_append_left nodes _ q.2 n hn, hname⟩
      · subst hq
        exact ⟨recNode r,
          alookup_append_fresh nodes (i, recNode r) (fun q2 hq2 => Nat.ne_of_lt (h3 q2 hq2)),
          rfl⟩
    have hinv2 : ∀ q ∈ dictInsert m r.name i, q.2 < i + 1 := by
      intro q hq
      rcases mem_dictInsert m r.name i q hq with hq | hq
      · exact Nat.lt_succ_of_lt (h2 q hq)
      · subst hq
        exact Nat.lt_succ_self i
    have hinv3 : ∀ q ∈ nodes ++ [(i, recNode r)], q.1 < i + 1 := by
      intro q hq
      rcases List.mem_append.mp hq with hq | hq
      · exact Nat.lt_succ_of_lt (h3 q hq)
      · rw [List.mem_singleton] at hq
        subst hq
        exact Nat.lt_succ_self i
    obtain ⟨n, hn, hname⟩ :=
      ih (dictInsert m r.name i) (nodes ++ [(i, recNode r)]) (i + 1) hinv1 hinv2 hinv3 p hp
    refine ⟨n, ?_, hname⟩
    rw [show mkNodes i (r :: rs) = (i, recNode r) :: mkNodes (i + 1) rs from rfl]
    rw [show nodes ++ (i, recNode r) :: mkNodes (i + 1) rs =
        (nodes ++ [(i, recNode r)]) ++ mkNodes (i + 1) rs from by
      rw [List.append_assoc]
      rfl]
    exact hn

theorem mkNodes_edges_nil : ∀ (doc : List NodeRec) (i : Nat),
    ∀ q ∈ mkNodes i doc, q.2.edges = [] := by
  intro doc
  induction doc with
  | nil => intro i q hq; cases hq
  | cons r rs ih =>
    intro i q hq
    rw [show mkNodes i (r :: rs) = (i, recNode r) :: mkNodes (i + 1) rs from rfl] at hq
    rcases List.mem_cons.mp hq with hq | hq
    · subst hq
      rfl
    · exact ih (i + 1) q hq

/-- The program state after the import's first loop: scene and name index
rebuilt from the document, no edges yet. -/
def loadBase (s : GState) (doc : List NodeRec) : GState :=
  { s with nodes := mkNodes s.nextN doc, edges := [], nodesMap := mkMap [] s.nextN doc,
           nextN := s.nextN + doc.length }

theorem load_graph_eq (s : GState) (file : String) (doc : List NodeRec)
    (h : ¬ file.length ≤ 3) :
    load_graph s file doc = loadEdges (loadBase s doc) (emFold [] doc) := by
  unfold load_graph
  rw [if_neg h]
  show loadEdges (doc.foldl loadNodeStep
    ({ s with nodes := [], edges := [], nodesMap := [] }, [])).1
    (doc.foldl loadNodeStep ({ s with nodes := [], edges := [], nodesMap := [] }, [])).2 = _
  rw [loadNodes_eq doc { s with nodes := [], edges := [], nodesMap := [] } []]
  rfl

theorem WF_loadBase (s : GState) (doc : List NodeRec) (hsel : s.selected = none) :
    WF (loadBase s doc) := by
  constructor
  case nodesKeys => exact mkNodes_keys_nodup doc s.nextN
  case edgesKeys => exact List.nodup_nil
  case nodesFresh =>
    intro k hk
    obtain ⟨p, hp, hpk⟩ := List.mem_map.mp hk
    obtain ⟨_, h2⟩ := mkNodes_bounds doc s.nextN p hp
    show k < s.nextN + doc.length
    omega
  case edgesFresh => intro k hk; cases hk
  case endsLive => intro p hp; cases hp
  case sym => intro p hp; cases hp
  case listsLive =>
    intro q hq e he
    rw [mkNodes_edges_nil doc s.nextN q hq] at he
    cases he
  case listsNodup =>
    intro q hq
    rw [mkNodes_edges_nil doc s.nextN q hq]
    exact List.nodup_nil
  case pairsNodup => exact List.nodup_nil
  case selLive =>
    intro a ha
    rw [show (loadBase s doc).selected = s.selected from rfl, hsel] at ha
    cases ha

theorem mapOK_loadBase (s : GState) (doc : List NodeRec) :
    ∀ p ∈ (loadBase s doc).nodesMap,
      ∃ n, alookup (loadBase s doc).nodes p.2 = some n ∧ n.name = p.1 := by
  intro p hp
  have := mkMap_ok doc [] [] s.nextN (fun q hq => by cases hq) (fun q hq => by cases hq)
    (fun q hq => by cases hq) p hp
  obtain ⟨n, hn, hname⟩ := this
  exact ⟨n, hn, hname⟩

theorem loadEdges_cons_err1 (s : GState) (x y : String) (rest : List (String × String))
    (hx : alookup s.nodesMap x = none) :
    loadEdges s ((x, y) :: rest) = .keyError s x := by
  simp only [loadEdges]
  rw [hx]

theorem loadEdges_cons_err2 (s : GState) (x y : String) (rest : List (String × String))
    (src : Nat) (hx : alookup s.nodesMap x = some src) (hy : alookup s.nodesMap y = none) :
    loadEdges s ((x, y) :: rest) = .keyError s y := by
  simp only [loadEdges]
  rw [hx, hy]

theorem loadEdges_cons_step (s : GState) (x y : String) (rest : List (String × String))
    (src dst : Nat) (hx : alookup s.nodesMap x = some src)
    (hy : alookup s.nodesMap y = some dst) :
    loadEdges s ((x, y) :: rest) = loadEdges (newEdge s src dst) rest := by
  simp only [loadEdges]
  rw [hx, hy]

theorem loadEdges_WF : ∀ (l : List (String × String)) (s : GState),
    WF s →
    (∀ p ∈ s.nodesMap, ∃ n, alookup s.nodes p.2 = some n ∧ n.name = p.1) →
    ((s.edges.map (fun p => pairOf s p.1)) ++ l).Nodup →
    (∀ s2, loadEdges s l = .ok s2 → WF s2 ∧ s2.selected = s.selected) ∧
    (∀ s2 m2, loadEdges s l = .keyError s2 m2 → WF s2 ∧ s2.selected = s.selected) := by
  intro l
  induction l with
  | nil =>
    intro s hWF hmap hnd
    constructor
    · intro s2 h2
      rw [show loadEdges s [] = .ok s from rfl] at h2
      cases h2
      exact ⟨hWF, rfl⟩
    · intro s2 m2 h2
      rw [show loadEdges s [] = .ok s from rfl] at h2
      cases h2
  | cons xy rest ih =>
    intro s hWF hmap hnd
    obtain ⟨x, y⟩ := xy
    cases hx : alookup s.nodesMap x with
    | none =>
      constructor
      · intro s2 h2
        rw [loadEdges_cons_err1 s x y rest hx] at h2
        cases h2
      · intro s2 m2 h2
        rw [loadEdges_cons_err1 s x y rest hx] at h2
        cases h2
        exact ⟨hWF, rfl⟩
    | some src =>
      cases hy : alookup s.nodesMap y with
      | none =>
        constructor
        · intro s2 h2
          rw [loadEdges_cons_err2 s x y rest src hx hy] at h2
          cases h2
        · intro s2 m2 h2
          rw [loadEdges_cons_err2 s x y rest src hx hy] at h2
          cases h2
          exact ⟨hWF, rfl⟩
      | some dst =>
        obtain ⟨nsrc, hnsrc, hnamesrc⟩ := hmap (x, src) (alookup_mem s.nodesMap x src hx)
        obtain ⟨ndst, hndst, hnamedst⟩ := hmap (y, dst) (alookup_mem s.nodesMap y dst hy)
        have hnames : (nameOf s src, nameOf s dst) = (x, y) := by
          unfold nameOf
          rw [hnsrc, hndst]
          show (nsrc.name, ndst.name) = (x, y)
          rw [hnamesrc, hnamedst]
        have hnd2 := hnd
        rw [show (x, y) :: rest = [(x, y)] ++ rest from rfl, ← List.append_assoc] at hnd2
        have hndleft : ((s.edges.map (fun p => pairOf s p.1)) ++ [(x, y)]).Nodup :=
          hnd2.of_append_left
        have hglobal : (nameOf s src, nameOf s dst) ∉
            s.edges.map (fun p => pairOf s p.1) := by
          rw [hnames]
          intro hmem
          rcases (List.nodup_append).mp hndleft with ⟨_, _, hdisj⟩
          exact hdisj hmem (List.mem_singleton.mpr rfl)
        obtain ⟨hok, hwf2⟩ := WF_newEdge s src dst hWF (by rw [hnsrc]; rfl)
          (by rw [hndst]; rfl) hglobal
        have hmap2 : ∀ p ∈ (newEdge s src dst).nodesMap,
            ∃ n, alookup (newEdge s src dst).nodes p.2 = some n ∧ n.name = p.1 := by
          rw [newEdge_nodesMap s src dst hok]
          intro p hp
          obtain ⟨n, hn, hname⟩ := hmap p hp
          rw [newEdge_lookup_nodes s src dst hok p.2]
          by_cases hc : p.2 = src ∨ p.2 = dst
          · rw [if_pos hc, hn]
            exact ⟨{ n with edges := n.edges ++ [s.nextE] }, rfl, hname⟩
          · rw [if_neg hc]
            exact ⟨n, hn, hname⟩
        have hnd3 : ((newEdge s src dst).edges.map
            (fun p => pairOf (newEdge s src dst) p.1) ++ rest).Nodup := by
          rw [newEdge_pairs s src dst hok, hnames, List.append_assoc]
          rw [show [(x, y)] ++ rest = (x, y) :: rest from rfl]
          exact hnd
        have hsel2 : (newEdge s src dst).selected = s.selected :=
          newEdge_selected s src dst hok
        obtain ⟨hgo, herr⟩ := ih (newEdge s src dst) hwf2 hmap2 hnd3
        constructor
        · intro s2 h2
          rw [loadEdges_cons_step s x y rest src dst hx hy] at h2
          obtain ⟨hw, hs⟩ := hgo s2 h2
          exact ⟨hw, hs.trans hsel2⟩
        · intro s2 m2 h2
          rw [loadEdges_cons_step s x y rest src dst hx hy] at h2
          obtain ⟨hw, hs⟩ := herr s2 m2 h2
          exact ⟨hw, hs.trans hsel2⟩

theorem load_WF (s : GState) (file : String) (doc : List NodeRec)
    (hsel : s.selected = none) :
    (∀ s2, load_graph s file doc = .ok s2 → WF s2 ∧ s2.selected = none) ∧
    (∀ s2 m2, load_graph s file doc = .keyError s2 m2 → WF s2 ∧ s2.selected = none) := by
  by_cases hf : file.length ≤ 3
  · constructor
    · intro s2 h2
      rw [show load_graph s file doc = .aborted s from by unfold load_graph; rw [if_pos hf]]
        at h2
      cases h2
    · intro s2 m2 h2
      rw [show load_graph s file doc = .aborted s from by unfold load_graph; rw [if_pos hf]]
        at h2
      cases h2
  · have heq := load_graph_eq s file doc hf
    have hbase := WF_loadBase s doc hsel
    have hmap := mapOK_loadBase s doc
    have hnd : (((loadBase s doc).edges.map (fun p => pairOf (loadBase s doc) p.1)) ++
        emFold [] doc).Nodup := by
      show (([] : List (String × String)) ++ emFold [] doc).Nodup
      rw [List.nil_append]
      exact emFold_nodup doc [] List.nodup_nil
    obtain ⟨hgo, herr⟩ := loadEdges_WF (emFold [] doc) (loadBase s doc) hbase hmap hnd
    have hbsel : (loadBase s doc).selected = none := hsel
    constructor
    · intro s2 h2
      rw [heq] at h2
      obtain ⟨hw, hs⟩ := hgo s2 h2
      exact ⟨hw, hs.trans hbsel⟩
    · intro s2 m2 h2
      rw [heq] at h2
      obtain ⟨hw, hs⟩ := herr s2 m2 h2
      exact ⟨hw, hs.trans hbsel⟩

/-- The master invariant: every state reachable along I3-disciplined runs is
structurally well-formed and keeps node names pairwise distinct. -/
theorem goodReach_wf : ∀ s : GState, GoodReach s → WF s ∧ namesNodup s := by
  intro s h
  induction h with
  | init => exact ⟨WF_initState, namesNodup_initState⟩
  | primary s t hr hnames ih => exact ⟨primaryClick_WF s t ih.1 ih.2, hnames⟩
  | middle s t hr ih => exact ⟨middleClick_WF s t ih.1, namesNodup_middleClick s t ih.2⟩
  | loadOk s file doc s2 hr hsel hload hnames ih =>
    exact ⟨((load_WF s file doc hsel).1 s2 hload).1, hnames⟩
  | loadErr s file doc s2 m2 hr hsel hload hnames ih =>
    exact ⟨((load_WF s file doc hsel).2 s2 m2 hload).1, hnames⟩

/-! ## Branch-independent effects of add_edge and newEdge -/

/-- Whatever its guards decide, `add_edge` only ever appends to the
registering node's `_edges` list: the result is the input state with zero,
one, or (never in reachable states, but syntactically) two pushes. -/
theorem add_edge_cases (s : GState) (i e : Nat) :
    add_edge s i e = s ∨ add_edge s i e = pushEdge s i e ∨
    add_edge s i e = pushEdge (pushEdge s i e) i e := by
  by_cases hlen : (edgeList s i).length = 0
  · cases h : alookup (pushEdge s i e).edges e with
    | none =>
      refine Or.inr (Or.inl ?_)
      unfold add_edge
      rw [if_pos hlen]
      show (match alookup (pushEdge s i e).edges e with
        | none => pushEdge s i e
        | some ed2 =>
          if pairOf (pushEdge s i e) e ∉ get_edges (pushEdge s i e) i ∧
             pairOf (pushEdge s i e) e ∉ get_edges (pushEdge s i e) ed2.dst then
            pushEdge (pushEdge s i e) i e
          else pushEdge s i e) = _
      rw [h]
    | some ed =>
      by_cases hc : pairOf (pushEdge s i e) e ∉ get_edges (pushEdge s i e) i ∧
          pairOf (pushEdge s i e) e ∉ get_edges (pushEdge s i e) ed.dst
      · refine Or.inr (Or.inr ?_)
        unfold add_edge
        rw [if_pos hlen]
        show (match alookup (pushEdge s i e).edges e with
          | none => pushEdge s i e
          | some ed2 =>
            if pairOf (pushEdge s i e) e ∉ get_edges (pushEdge s i e) i ∧
               pairOf (pushEdge s i e) e ∉ get_edges (pushEdge s i e) ed2.dst then
              pushEdge (pushEdge s i e) i e
            else pushEdge s i e) = _
        rw [h]
        show (if pairOf (pushEdge s i e) e ∉ get_edges (pushEdge s i e) i ∧
            pairOf (pushEdge s i e) e ∉ get_edges (pushEdge s i e) ed.dst then
            pushEdge (pushEdge s i e) i e
          else pushEdge s i e) = _
        rw [if_pos hc]
      · refine Or.inr (Or.inl ?_)
        unfold add_edge
        rw [if_pos hlen]
        show (match alookup (pushEdge s i e).edges e with
          | none => pushEdge s i e
          | some ed2 =>
            if pairOf (pushEdge s i e) e ∉ get_edges (pushEdge s i e) i ∧
               pairOf (pushEdge s i e) e ∉ get_edges (pushEdge s i e) ed2.dst then
              pushEdge (pushEdge s i e) i e
            else pushEdge s i e) = _
        rw [h]
        show (if pairOf (pushEdge s i e) e ∉ get_edges (pushEdge s i e) i ∧
            pairOf (pushEdge s i e) e ∉ get_edges (pushEdge s i e) ed.dst then
            pushEdge (pushEdge s i e) i e
          else pushEdge s i e) = _
        rw [if_neg hc]
  · cases h : alookup s.edges e with
    | none =>
      refine Or.inl ?_
      unfold add_edge
      rw [if_neg hlen]
      show (match alookup s.edges e with
        | none => s
        | some ed2 =>
          if pairOf s e ∉ get_edges s i ∧ pairOf s e ∉ get_edges s ed2.dst then
            pushEdge s i e
          else s) = _
      rw [h]
    | some ed =>
      by_cases hc : pairOf s e ∉ get_edges s i ∧ pairOf s e ∉ get_edges s ed.dst
      · refine Or.inr (Or.inl ?_)
        unfold add_edge
        rw [if_neg hlen]
        show (match alookup s.edges e with
          | none => s
          | some ed2 =>
            if pairOf s e ∉ get_edges s i ∧ pairOf s e ∉ get_edges s ed2.dst then
              pushEdge s i e
            else s) = _
        rw [h]
        show (if pairOf s e ∉ get_edges s i ∧ pairOf s e ∉ get_edges s ed.dst then
            pushEdge s i e
          else s) = _
        rw [if_pos hc]
      · refine Or.inl ?_
        unfold add_edge
        rw [if_neg hlen]
        show (match alookup s.edges e with
          | none => s
          | some ed2 =>
            if pairOf s e ∉ get_edges s i ∧ pairOf s e ∉ get_edges s ed2.dst then
              pushEdge s i e
            else s) = _
        rw [h]
        show (if pairOf s e ∉ get_edges s i ∧ pairOf s e ∉ get_edges s ed.dst then
            pushEdge s i e
          else s) = _
        rw [if_neg hc]

theorem add_edge_edges (s : GState) (i e : Nat) : (add_edge s i e).edges = s.edges := by
  rcases add_edge_cases s i e with hc | hc | hc <;> rw [hc] <;> rfl

theorem add_edge_nodesMap (s : GState) (i e : Nat) :
    (add_edge s i e).nodesMap = s.nodesMap := by
  rcases add_edge_cases s i e with hc | hc | hc <;> rw [hc] <;> rfl

theorem add_edge_nextE (s : GState) (i e : Nat) : (add_edge s i e).nextE = s.nextE := by
  rcases add_edge_cases s i e with hc | hc | hc <;> rw [hc] <;> rfl

theorem add_edge_nameOf (s : GState) (i e j : Nat) :
    nameOf (add_edge s i e) j = nameOf s j := by
  rcases add_edge_cases s i e with hc | hc | hc <;> rw [hc]
  · rw [nameOf_pushEdge]
  · rw [nameOf_pushEdge, nameOf_pushEdge]

theorem add_edge_keys (s : GState) (i e : Nat) :
    (add_edge s i e).nodes.map Prod.fst = s.nodes.map Prod.fst := by
  rcases add_edge_cases s i e with hc | hc | hc <;> rw [hc]
  · rw [pushEdge_keys]
  · rw [pushEdge_keys, pushEdge_keys]

theorem add_edge_isSomeNode (s : GState) (i e j : Nat) :
    (alookup (add_edge s i e).nodes j).isSome = (alookup s.nodes j).isSome := by
  rw [Bool.eq_iff_iff, alookup_isSome_iff_mem, alookup_isSome_iff_mem, add_edge_keys]

theorem newEdge_edges_always (s : GState) (src dst : Nat) :
    (newEdge s src dst).edges = s.edges ++ [(s.nextE, ⟨src, dst⟩)] := by
  show (add_edge (add_edge (allocEdge s src dst) src s.nextE) dst s.nextE).edges = _
  rw [add_edge_edges, add_edge_edges]
  rfl

theorem newEdge_nextE_always (s : GState) (src dst : Nat) :
    (newEdge s src dst).nextE = s.nextE + 1 := by
  show (add_edge (add_edge (allocEdge s src dst) src s.nextE) dst s.nextE).nextE = _
  rw [add_edge_nextE, add_edge_nextE]
  rfl

theorem newEdge_nodesMap_always (s : GState) (src dst : Nat) :
    (newEdge s src dst).nodesMap = s.nodesMap := by
  show (add_edge (add_edge (allocEdge s src dst) src s.nextE) dst s.nextE).nodesMap = _
  rw [add_edge_nodesMap, add_edge_nodesMap]
  rfl

theorem newEdge_nameOf_always (s : GState) (src dst j : Nat) :
    nameOf (newEdge s src dst) j = nameOf s j := by
  show nameOf (add_edge (add_edge (allocEdge s src dst) src s.nextE) dst s.nextE) j = _
  rw [add_edge_nameOf, add_edge_nameOf]
  rfl

theorem newEdge_keys_always (s : GState) (src dst : Nat) :
    (newEdge s src dst).nodes.map Prod.fst = s.nodes.map Prod.fst := by
  show (add_edge (add_edge (allocEdge s src dst) src s.nextE) dst s.nextE).nodes.map
    Prod.fst = _
  rw [add_edge_keys, add_edge_keys]
  rfl

theorem pairOf_newEdge_ne_always (s : GState) (src dst k : Nat) (hk : k ≠ s.nextE) :
    pairOf (newEdge s src dst) k = pairOf s k := by
  have hedges : alookup (newEdge s src dst).edges k = alookup s.edges k := by
    rw [newEdge_edges_always]
    exact alookup_append_ne s.edges _ k (fun he => hk he.symm)
  unfold pairOf
  rw [hedges]
  cases alookup s.edges k with
  | none => rfl
  | some ed => simp [newEdge_nameOf_always]

theorem pairOf_newEdge_self_always (s : GState) (src dst : Nat)
    (hfresh : ∀ p ∈ s.edges, p.1 ≠ s.nextE) :
    pairOf (newEdge s src dst) s.nextE = (nameOf s src, nameOf s dst) := by
  have hedges : alookup (newEdge s src dst).edges s.nextE = some ⟨src, dst⟩ := by
    rw [newEdge_edges_always]
    exact alookup_append_fresh s.edges _ hfresh
  unfold pairOf
  rw [hedges]
  simp [newEdge_nameOf_always]

/-- The trace of ordered name pairs a successful second import loop appends:
exactly the processed pair list, in order, one live Edge object per pair. -/
theorem loadEdges_pairs : ∀ (l : List (String × String)) (st : GState),
    (∀ x v, alookup st.nodesMap x = some v → nameOf st v = x) →
    (∀ p ∈ st.edges, p.1 < st.nextE) →
    ∀ s2, loadEdges st l = .ok s2 →
      s2.edges.map (fun p => pairOf s2 p.1) = st.edges.map (fun p => pairOf st p.1) ++ l := by
  intro l
  induction l with
  | nil =>
    intro st hmap hfresh s2 h2
    rw [show loadEdges st [] = .ok st from rfl] at h2
    cases h2
    rw [List.append_nil]
  | cons xy rest ih =>
    intro st hmap hfresh s2 h2
    obtain ⟨x, y⟩ := xy
    cases hx : alookup st.nodesMap x with
    | none =>
      rw [loadEdges_cons_err1 st x y rest hx] at h2
      cases h2
    | some src =>
      cases hy : alookup st.nodesMap y with
      | none =>
        rw [loadEdges_cons_err2 st x y rest src hx hy] at h2
        cases h2
      | some dst =>
        rw [loadEdges_cons_step st x y rest src dst hx hy] at h2
        have hmap2 : ∀ x2 v, alookup (newEdge st src dst).nodesMap x2 = some v →
            nameOf (newEdge st src dst) v = x2 := by
          intro x2 v hv
          rw [newEdge_nodesMap_always] at hv
          rw [newEdge_nameOf_always]
          exact hmap x2 v hv
        have hfresh2 : ∀ p ∈ (newEdge st src dst).edges, p.1 < (newEdge st src dst).nextE := by
          rw [newEdge_edges_always, newEdge_nextE_always]
          intro p hp
          rcases List.mem_append.mp hp with hp | hp
          · exact Nat.lt_succ_of_lt (hfresh p hp)
          · rw [List.mem_singleton] at hp
            subst hp
            exact Nat.lt_succ_self _
        have hres := ih (newEdge st src dst) hmap2 hfresh2 s2 h2
        rw [hres]
        have hpairs : (newEdge st src dst).edges.map
            (fun p => pairOf (newEdge st src dst) p.1) =
            st.edges.map (fun p => pairOf st p.1) ++ [(x, y)] := by
          rw [newEdge_edges_always, List.map_append]
          congr 1
          · apply List.map_congr_left
            intro p hp
            exact pairOf_newEdge_ne_always st src dst p.1 (Nat.ne_of_lt (hfresh p hp))
          · show [pairOf (newEdge st src dst) st.nextE] = _
            rw [pairOf_newEdge_self_always st src dst
              (fun p hp => Nat.ne_of_lt (hfresh p hp))]
            rw [hmap x src hx, hmap y dst hy]
        rw [hpairs, List.append_assoc]
        rfl

/-! ## Reachability of the concrete runs -/

theorem goodReach_runA4 : GoodReach runA4 :=
  .primary runA3 (.onNode 1)
    (.primary runA2 (.onNode 0)
      (.primary runA1 (.empty (300, 100))
        (.primary initState (.empty (100, 100)) .init (by unfold namesNodup; decide))
        (by unfold namesNodup; decide))
      (by unfold namesNodup; decide))
    (by unfold namesNodup; decide)

theorem goodReach_runA6 : GoodReach runA6 :=
  .primary runA5 (.onNode 0)
    (.primary runA4 (.onNode 1) goodReach_runA4 (by unfold namesNodup; decide))
    (by unfold namesNodup; decide)

def runC1 : GState := primaryClick runA4 (.onNode 0)

theorem goodReach_runC1 : GoodReach runC1 :=
  .primary runA4 (.onNode 0) goodReach_runA4 (by unfold namesNodup; decide)

/-! ## C1: uniqueness of edge name pairs among live edges -/

/-- C1, amended.  The claimed invariant over *unordered* pairs fails
(`c1_unordered_duplicate_counterexample`); what the program maintains along
I3-disciplined reachable runs is uniqueness of the *ordered*
`[source._name, dest._name]` pair: the pair trace of the live edges is
duplicate-free, so each ordered pair is carried by at most one live Edge
object. -/
theorem c1_ordered_pair_uniqueness (s : GState) (h : GoodReach s) :
    (s.edges.map (fun p => pairOf s p.1)).Nodup ∧
    ∀ p ∈ s.edges, ∀ q ∈ s.edges, pairOf s p.1 = pairOf s q.1 → p = q := by
  have hwf := (goodReach_wf s h).1
  exact ⟨hwf.pairsNodup,
    fun _ hp _ hq hpq => List.inj_on_of_nodup_map hwf.pairsNodup hp hq hpq⟩

theorem c1_ordered_pair_uniqueness_witness :
    GoodReach runA6 ∧ (runA6.edges.map (fun p => pairOf runA6 p.1)).Nodup :=
  ⟨goodReach_runA6, (c1_ordered_pair_uniqueness runA6 goodReach_runA6).1⟩

/-! ## C4: symmetric registration of live edges -/

/-- C4, amended.  Along I3-disciplined reachable runs (in particular, no load
may introduce a node whose name collides with the count-based
name a later interactive creation will pick — see
`c4_asymmetric_registration_counterexample` for what happens otherwise),
every live Edge is registered in the `_edges` list of its source node and in
that of its destination node. -/
theorem c4_symmetric_registration (s : GState) (h : GoodReach s) :
    ∀ p ∈ s.edges, p.1 ∈ edgeList s p.2.src ∧ p.1 ∈ edgeList s p.2.dst :=
  fun p hp => (goodReach_wf s h).1.sym p hp

theorem c4_symmetric_registration_witness :
    GoodReach runA4 ∧ (0 ∈ edgeList runA4 0 ∧ 0 ∈ edgeList runA4 1) :=
  ⟨goodReach_runA4, c4_symmetric_registration runA4 goodReach_runA4 (0, ⟨0, 1⟩) (by decide)⟩

/-! ## C10: the path-length boundary -/

theorem loadEdges_ne_aborted : ∀ (l : List (String × String)) (st s2 : GState),
    loadEdges st l ≠ .aborted s2 := by
  intro l
  induction l with
  | nil =>
    intro st s2 h
    rw [show loadEdges st [] = .ok st from rfl] at h
    cases h
  | cons xy rest ih =>
    intro st s2 h
    obtain ⟨x, y⟩ := xy
    cases hx : alookup st.nodesMap x with
    | none =>
      rw [loadEdges_cons_err1 st x y rest hx] at h
      cases h
    | some src =>
      cases hy : alookup st.nodesMap y with
      | none =>
        rw [loadEdges_cons_err2 st x y rest src hx hy] at h
        cases h
      | some dst =>
        rw [loadEdges_cons_step st x y rest src dst hx hy] at h
        exact ih (newEdge st src dst) s2 h

/-- C10.  `load_graph` takes its early abort return — leaving the state it
was called on untouched — exactly for path strings of length ≤ 3, while both
save guards let the write proceed exactly for lengths ≥ 3; a file saved under
a 3-character name therefore satisfies both save guards yet is rejected by
every load. -/
theorem c10_path_length_boundary :
    (∀ (st : GState) (file : String) (doc : List NodeRec),
       load_graph st file doc = .aborted st ↔ file.length ≤ 3) ∧
    (∀ file : String, quickSaveProceeds file ↔ 3 ≤ file.length) ∧
    (∀ fileName : String, saveProceeds fileName ↔ 3 ≤ fileName.length) ∧
    (∀ file : String, file.length = 3 →
       quickSaveProceeds file ∧ saveProceeds file ∧
       ∀ (st : GState) (doc : List NodeRec), load_graph st file doc = .aborted st) := by
  have habort : ∀ (st : GState) (file : String) (doc : List NodeRec),
      load_graph st file doc = .aborted st ↔ file.length ≤ 3 := by
    intro st file doc
    constructor
    · intro h
      by_contra hf
      rw [load_graph_eq st file doc hf] at h
      exact loadEdges_ne_aborted (emFold [] doc) (loadBase st doc) st h
    · intro hf
      unfold load_graph
      rw [if_pos hf]
  refine ⟨habort, fun file => Iff.rfl, fun fileName => Iff.rfl, ?_⟩
  intro file h3
  refine ⟨?_, ?_, fun st doc => (habort st file doc).mpr (Nat.le_of_eq h3)⟩
  · show 3 ≤ file.length
    omega
  · show 3 ≤ file.length
    omega

theorem c10_path_length_boundary_witness :
    quickSaveProceeds "a.b" ∧ saveProceeds "a.b" ∧
    load_graph initState "a.b" [] = .aborted initState := by
  obtain ⟨hq, hs, hl⟩ := c10_path_length_boundary.2.2.2 "a.b" (by decide)
  exact ⟨hq, hs, hl initState []⟩

/-! ## Frame of the import's second loop on everything but edge lists -/

/-- A node with its `_edges` list cleared: two nodes with equal `dropE` images
agree on every attribute the metadata/serialization path reads except the
edge list. -/
def dropE (n : NodeD) : NodeD := { n with edges := [] }

theorem add_edge_selected (s : GState) (i e : Nat) :
    (add_edge s i e).selected = s.selected := by
  rcases add_edge_cases s i e with hc | hc | hc <;> rw [hc] <;> rfl

theorem newEdge_selected_always (s : GState) (src dst : Nat) :
    (newEdge s src dst).selected = s.selected := by
  show (add_edge (add_edge (allocEdge s src dst) src s.nextE) dst s.nextE).selected = _
  rw [add_edge_selected, add_edge_selected]
  rfl

theorem alookup_dropE_pushEdge (s : GState) (i e j : Nat) :
    (alookup (pushEdge s i e).nodes j).map dropE = (alookup s.nodes j).map dropE := by
  show (alookup (updateNode s i (fun n => { n with edges := n.edges ++ [e] })).nodes j).map
    dropE = _
  rw [alookup_updateNode]
  by_cases hj : j = i
  · subst hj
    rw [if_pos rfl]
    cases alookup s.nodes j with
    | none => rfl
    | some n => rfl
  · rw [if_neg hj]

theorem alookup_dropE_add_edge (s : GState) (i e j : Nat) :
    (alookup (add_edge s i e).nodes j).map dropE = (alookup s.nodes j).map dropE := by
  rcases add_edge_cases s i e with hc | hc | hc <;> rw [hc]
  · rw [alookup_dropE_pushEdge]
  · rw [alookup_dropE_pushEdge, alookup_dropE_pushEdge]

theorem alookup_dropE_newEdge (s : GState) (src dst j : Nat) :
    (alookup (newEdge s src dst).nodes j).map dropE = (alookup s.nodes j).map dropE := by
  show (alookup (add_edge (add_edge (allocEdge s src dst) src s.nextE) dst s.nextE).nodes
    j).map dropE = _
  rw [alookup_dropE_add_edge, alookup_dropE_add_edge]
  rfl

/-- A successful run of the import's second loop touches only edge state:
the name index, the key list of the scene's nodes, the selection, and every
node attribute other than the `_edges` list are unchanged. -/
theorem loadEdges_frame : ∀ (l : List (String × String)) (st s2 : GState),
    loadEdges st l = .ok s2 →
    s2.nodesMap = st.nodesMap ∧ s2.nodes.map Prod.fst = st.nodes.map Prod.fst ∧
    s2.selected = st.selected ∧
    ∀ j, (alookup s2.nodes j).map dropE = (alookup st.nodes j).map dropE := by
  intro l
  induction l with
  | nil =>
    intro st s2 h2
    rw [show loadEdges st [] = .ok st from rfl] at h2
    cases h2
    exact ⟨rfl, rfl, rfl, fun j => rfl⟩
  | cons xy rest ih =>
    intro st s2 h2
    obtain ⟨x, y⟩ := xy
    cases hx : alookup st.nodesMap x with
    | none =>
      rw [loadEdges_cons_err1 st x y rest hx] at h2
      cases h2
    | some src =>
      cases hy : alookup st.nodesMap y with
      | none =>
        rw [loadEdges_cons_err2 st x y rest src hx hy] at h2
        cases h2
      | some dst =>
        rw [loadEdges_cons_step st x y rest src dst hx hy] at h2
        obtain ⟨h1, hk, hs, hd⟩ := ih (newEdge st src dst) s2 h2
        refine ⟨h1.trans (newEdge_nodesMap_always st src dst),
          hk.trans (newEdge_keys_always st src dst),
          hs.trans (newEdge_selected_always st src dst),
          fun j => (hd j).trans (alookup_dropE_newEdge st src dst j)⟩

/-- Lookup in the scene rebuilt by the import's first loop: the `k`-th
document record sits under the `k`-th fresh id. -/
theorem mkNodes_lookup : ∀ (doc : List NodeRec) (i k : Nat) (r : NodeRec),
    doc[k]? = some r → alookup (mkNodes i doc) (i + k) = some (recNode r) := by
  intro doc
  induction doc with
  | nil =>
    intro i k r hr
    rw [show ([] : List NodeRec)[k]? = none from by cases k <;> rfl] at hr
    cases hr
  | cons r0 rs ih =>
    intro i k r hr
    cases k with
    | zero =>
      rw [List.getElem?_cons_zero] at hr
      cases hr
      show (if i = i + 0 then some (recNode r0) else alookup (mkNodes (i + 1) rs) (i + 0)) = _
      rw [if_pos (by omega)]
    | succ k =>
      rw [List.getElem?_cons_succ] at hr
      show (if i = i + (k + 1) then some (recNode r0)
        else alookup (mkNodes (i + 1) rs) (i + (k + 1))) = _
      rw [if_neg (by omega), show i + (k + 1) = (i + 1) + k by omega]
      exact ih (i + 1) k r hr

/-! ## First-seen deduplication of the collected pair list -/

/-- The specification's description of the collected `edge_map`: one global
pass over the concatenation of all records' pair lists, keeping each pair the
first time it is seen.  (The spec-side formulation, to be compared with the
source-side `emFold`.) -/
def firstSeenDedup (l : List (String × String)) : List (String × String) :=
  l.foldl (fun em e => if e ∈ em then em else em ++ [e]) []

theorem emFold_flat : ∀ (doc : List NodeRec) (acc : List (String × String)),
    emFold acc doc = (doc.flatMap NodeRec.edges).foldl
      (fun em e => if e ∈ em then em else em ++ [e]) acc := by
  intro doc
  induction doc with
  | nil => intro acc; rfl
  | cons r rs ih =>
    intro acc
    rw [show emFold acc (r :: rs) =
      emFold (r.edges.foldl (fun em e => if e ∈ em then em else em ++ [e]) acc) rs from rfl]
    rw [ih]
    rw [show (r :: rs).flatMap NodeRec.edges = r.edges ++ rs.flatMap NodeRec.edges from
      List.flatMap_cons r rs NodeRec.edges]
    rw [List.foldl_append]

theorem mapOK_lookup (s : GState)
    (hmap : ∀ p ∈ s.nodesMap, ∃ n, alookup s.nodes p.2 = some n ∧ n.name = p.1) :
    ∀ x v, alookup s.nodesMap x = some v → nameOf s v = x := by
  intro x v hv
  obtain ⟨n, hn, hname⟩ := hmap (x, v) (alookup_mem s.nodesMap x v hv)
  unfold nameOf
  rw [hn]
  exact hname

/-! ## C7: first-seen deduplication of imported edge pairs -/

/-- C7.  A successful import collects the records' `[sourceName, destName]`
pairs into one global first-seen-order deduplicated list (the source-side
running `edge_map` equals the spec-side single pass `firstSeenDedup` over the
concatenation of all records' pair lists), and constructs exactly one Edge
object per collected pair: the resulting live pair trace *is* that list,
duplicate-free, containing a pair iff some record listed it. -/
theorem c7_import_pair_dedup (s s2 : GState) (file : String) (doc : List NodeRec)
    (h : load_graph s file doc = .ok s2) :
    s2.edges.map (fun p => pairOf s2 p.1) = firstSeenDedup (doc.flatMap NodeRec.edges) ∧
    (firstSeenDedup (doc.flatMap NodeRec.edges)).Nodup ∧
    (∀ x, x ∈ firstSeenDedup (doc.flatMap NodeRec.edges) ↔ ∃ r ∈ doc, x ∈ r.edges) := by
  have hf : ¬ file.length ≤ 3 := by
    intro hf
    rw [show load_graph s file doc = .aborted s from by unfold load_graph; rw [if_pos hf]]
      at h
    cases h
  rw [load_graph_eq s file doc hf] at h
  have hfsd : emFold [] doc = firstSeenDedup (doc.flatMap NodeRec.edges) := emFold_flat doc []
  have hmap := mapOK_lookup (loadBase s doc) (mapOK_loadBase s doc)
  have hfresh : ∀ p ∈ (loadBase s doc).edges, p.1 < (loadBase s doc).nextE := by
    intro p hp
    cases hp
  have htrace := loadEdges_pairs (emFold [] doc) (loadBase s doc) hmap hfresh s2 h
  refine ⟨?_, ?_, ?_⟩
  · rw [htrace]
    show ([] : List (String × String)) ++ emFold [] doc = _
    rw [List.nil_append, hfsd]
  · rw [← hfsd]
    exact emFold_nodup doc [] List.nodup_nil
  · intro x
    rw [← hfsd, emFold_mem]
    constructor
    · rintro (hx | hx)
      · cases hx
      · exact hx
    · exact Or.inr

def c7doc : List NodeRec := [mkRec "1" [("1", "2")], mkRec "2" [("1", "2")]]

def c7res : GState := stateOf (load_graph initState "dup.json" c7doc)

theorem c7_import_pair_dedup_witness :
    load_graph initState "dup.json" c7doc = .ok c7res ∧
    c7res.edges.map (fun p => pairOf c7res p.1) =
      firstSeenDedup (c7doc.flatMap NodeRec.edges) ∧
    firstSeenDedup (c7doc.flatMap NodeRec.edges) = [("1", "2")] := by
  have hload : load_graph initState "dup.json" c7doc = .ok c7res := by decide
  obtain ⟨h1, _, _⟩ := c7_import_pair_dedup initState c7res "dup.json" c7doc hload
  exact ⟨hload, h1, by decide⟩

/-! ## C5: the position convention -/

/-- C5.  Interactive placement routes the double-click point through
`setPosition`, storing the top-left corner at `(x − r, y − r)` with the fixed
radius `r = 30`; the import path instead calls `setPos` with the stored
coordinates directly, so a loaded record's node sits at exactly the recorded
position (which a successful import's second loop never moves). -/
theorem c5_position_convention (s : GState) (h : GoodReach s) :
    (∀ p : Int × Int,
      alookup (primaryClick s (.empty p)).nodes s.nextN =
        some (setPosition (newNodeDefaults (toString (s.nodes.length + 1))) p) ∧
      (setPosition (newNodeDefaults (toString (s.nodes.length + 1))) p).pos =
        (p.1 - 30, p.2 - 30) ∧
      (setPosition (newNodeDefaults (toString (s.nodes.length + 1))) p).radius = 30) ∧
    (∀ (file : String) (doc : List NodeRec) (s2 : GState),
      load_graph s file doc = .ok s2 →
      ∀ (k : Nat) (r : NodeRec), doc[k]? = some r →
        ∃ n, alookup s2.nodes (s.nextN + k) = some n ∧ n.pos = r.pos ∧ n.name = r.name) := by
  have hwf := (goodReach_wf s h).1
  constructor
  · intro p
    refine ⟨?_, rfl, rfl⟩
    rw [pc_empty]
    show alookup (s.nodes ++
      [(s.nextN, setPosition (newNodeDefaults (toString (s.nodes.length + 1))) p)])
      s.nextN = _
    exact alookup_append_fresh s.nodes _
      (fun q hq => Nat.ne_of_lt (hwf.nodesFresh q.1 (List.mem_map_of_mem Prod.fst hq)))
  · intro file doc s2 h2 k r hr
    have hf : ¬ file.length ≤ 3 := by
      intro hf
      rw [show load_graph s file doc = .aborted s from by unfold load_graph; rw [if_pos hf]]
        at h2
      cases h2
    rw [load_graph_eq s file doc hf] at h2
    obtain ⟨_, _, _, hd⟩ := loadEdges_frame (emFold [] doc) (loadBase s doc) s2 h2
    have hbase : alookup (loadBase s doc).nodes (s.nextN + k) = some (recNode r) :=
      mkNodes_lookup doc s.nextN k r hr
    have hd2 := hd (s.nextN + k)
    rw [hbase] at hd2
    cases hs2 : alookup s2.nodes (s.nextN + k) with
    | none =>
      rw [hs2] at hd2
      cases hd2
    | some n =>
      rw [hs2] at hd2
      have hdn : dropE n = dropE (recNode r) := Option.some.inj hd2
      exact ⟨n, rfl, congrArg NodeD.pos hdn, congrArg NodeD.name hdn⟩

theorem c5_position_convention_witness :
    GoodReach initState ∧
    alookup (primaryClick initState (.empty (100, 100))).nodes initState.nextN =
      some (setPosition (newNodeDefaults (toString (initState.nodes.length + 1)))
        (100, 100)) ∧
    (setPosition (newNodeDefaults (toString (initState.nodes.length + 1))) (100, 100)).pos =
      ((100 : Int) - 30, (100 : Int) - 30) :=
  ⟨.init, ((c5_position_convention initState .init).1 (100, 100)).1,
    ((c5_position_convention initState .init).1 (100, 100)).2.1⟩

/-! ## C6: the delete toggle -/

/-- C6.  With node `a` selected and a primary double-click on a different
node `i`, when the shared-edge comparison finds the ordered pair
`[a._name, i._name]` among the shared edges' pairs, the handler deletes
`shared[0]` — the *first* shared edge in `a`'s list, which, whenever the
shared edge is unique (amendment; see
`c6_deletes_first_shared_edge_counterexample` for two shared edges, where the
first one is deleted even if it is the reverse-direction edge), is exactly
the directed Edge object with source `a` and destination `i`: that object
leaves the scene's edge set and both endpoints' `_edges` lists, every other
node's list is untouched, and the selection is cleared. -/
theorem c6_delete_toggle (s : GState) (a i e0 : Nat)
    (hg : GoodReach s) (hi : (alookup s.nodes i).isSome) (hsel : s.selected = some a)
    (hai : ¬ a = i) (hsh : sharedEdges s a i = [e0])
    (hpair : pairOf s e0 = (nameOf s a, nameOf s i)) :
    alookup s.edges e0 = some ⟨a, i⟩ ∧
    (primaryClick s (.onNode i)).edges = s.edges.filter (fun p => decide (p.1 ≠ e0)) ∧
    (∀ j, edgeList (primaryClick s (.onNode i)) j =
      if j = a ∨ j = i then (edgeList s j).filter (fun k => !(k == e0))
      else edgeList s j) ∧
    (primaryClick s (.onNode i)).selected = none := by
  obtain ⟨hwf, hnd⟩ := goodReach_wf s hg
  cases hiv : alookup s.nodes i with
  | none =>
    rw [hiv] at hi
    simp at hi
  | some ni =>
  have hav : (alookup s.nodes a).isSome := hwf.selLive a hsel
  cases hava : alookup s.nodes a with
  | none =>
    rw [hava] at hav
    simp at hav
  | some na =>
  have he0sh : e0 ∈ sharedEdges s a i := by
    rw [hsh]
    exact List.mem_singleton.mpr rfl
  have he0a : e0 ∈ edgeList s a := List.mem_of_mem_filter he0sh
  have he0i : e0 ∈ edgeList s i := by
    have := (List.mem_filter.mp he0sh).2
    exact of_decide_eq_true this
  obtain ⟨ed, hed, _⟩ := hwf.edgeList_live a e0 he0a
  have hpairOf : pairOf s e0 = (nameOf s ed.src, nameOf s ed.dst) := by
    unfold pairOf
    rw [hed]
  obtain ⟨hlsrc, hldst⟩ := hwf.endsLive (e0, ed) (alookup_mem s.edges e0 ed hed)
  have hnames : (nameOf s ed.src, nameOf s ed.dst) = (nameOf s a, nameOf s i) := by
    rw [← hpairOf]
    exact hpair
  have hnamea : nameOf s ed.src = na.name := by
    have h1 := congrArg Prod.fst hnames
    simp at h1
    rw [h1]
    unfold nameOf
    rw [hava]
    rfl
  have hnamei : nameOf s ed.dst = ni.name := by
    have h1 := congrArg Prod.snd hnames
    simp at h1
    rw [h1]
    unfold nameOf
    rw [hiv]
    rfl
  have hsrc : ed.src = a := node_id_of_name s hnd a na hava ed.src hlsrc hnamea
  have hdst : ed.dst = i := node_id_of_name s hnd i ni hiv ed.dst hldst hnamei
  have hed' : alookup s.edges e0 = some ⟨a, i⟩ := by
    rw [← hsrc, ← hdst]
    exact hed
  have hmempair : (nameOf s a, nameOf s i) ∈ ([e0].map (pairOf s)) := by
    show _ ∈ [pairOf s e0]
    exact List.mem_singleton.mpr hpair.symm
  have hres := pc_onNode_delete s i ni hiv a hsel hai e0 [] hsh (fun hnot => hnot hmempair)
  refine ⟨hed', ?_, ?_, ?_⟩
  · rw [hres]
    show (removeEdgeItem (edgeDelete s e0) e0).edges = _
    rw [removeEdgeItem_edges, edgeDelete_edges]
  · intro j
    rw [hres]
    show edgeList (removeEdgeItem (edgeDelete s e0) e0) j = _
    rw [removeEdgeItem_edgeList]
    exact edgeList_edgeDelete s hwf e0 a i hed' j
  · rw [hres]

theorem c6_delete_toggle_witness :
    GoodReach runC1 ∧ sharedEdges runC1 0 1 = [0] ∧
    alookup runC1.edges 0 = some ⟨0, 1⟩ ∧
    (primaryClick runC1 (.onNode 1)).edges =
      runC1.edges.filter (fun p => decide (p.1 ≠ 0)) ∧
    (primaryClick runC1 (.onNode 1)).selected = none ∧
    edgeList (primaryClick runC1 (.onNode 1)) 0 = [] ∧
    edgeList (primaryClick runC1 (.onNode 1)) 1 = [] := by
  obtain ⟨h1, h2, h3, h4⟩ := c6_delete_toggle runC1 0 1 0 goodReach_runC1
    (by decide) (by decide) (by decide) (by decide) (by decide)
  exact ⟨goodReach_runC1, by decide, h1, h2, h4, by decide, by decide⟩

/-! ## Toolkit for the round trip: the name index, list positions, names -/

theorem alookup_dictInsert : ∀ (m : List (String × Nat)) (k : String) (v : Nat) (x : String),
    alookup (dictInsert m k v) x = if x = k then some v else alookup m x := by
  intro m k v
  induction m with
  | nil =>
    intro x
    show (if k = x then some v else none) = _
    by_cases hx : x = k
    · rw [if_pos hx.symm, if_pos hx]
    · rw [if_neg (fun h => hx h.symm), if_neg hx]
      rfl
  | cons p l ih =>
    intro x
    show alookup (if p.1 = k then (k, v) :: l else p :: dictInsert l k v) x = _
    by_cases hp : p.1 = k
    · rw [if_pos hp]
      show (if k = x then some v else alookup l x) = _
      by_cases hx : x = k
      · rw [if_pos hx.symm, if_pos hx]
      · rw [if_neg (fun h => hx h.symm), if_neg hx]
        show _ = if p.1 = x then some p.2 else alookup l x
        rw [if_neg (fun h => hx (by rw [← h, hp]))]
    · rw [if_neg hp]
      show (if p.1 = x then some p.2 else alookup (dictInsert l k v) x) = _
      by_cases hpx : p.1 = x
      · rw [if_pos hpx, if_neg (fun h => hp (by rw [hpx, h]))]
        show _ = if p.1 = x then some p.2 else alookup l x
        rw [if_pos hpx]
      · rw [if_neg hpx, ih x]
        by_cases hx : x = k
        · rw [if_pos hx, if_pos hx]
        · rw [if_neg hx, if_neg hx]
          show _ = if p.1 = x then some p.2 else alookup l x
          rw [if_neg hpx]

theorem mkMap_isSome : ∀ (doc : List NodeRec) (m : List (String × Nat)) (i : Nat)
    (x : String), ((alookup m x).isSome ∨ x ∈ doc.map NodeRec.name) →
    (alookup (mkMap m i doc) x).isSome := by
  intro doc
  induction doc with
  | nil =>
    intro m i x h
    rcases h with h | h
    · exact h
    · cases h
  | cons r rs ih =>
    intro m i x h
    show (alookup (mkMap (dictInsert m r.name i) (i + 1) rs) x).isSome
    apply ih
    rcases h with h | h
    · left
      rw [alookup_dictInsert]
      by_cases hx : x = r.name
      · rw [if_pos hx]
        rfl
      · rw [if_neg hx]
        exact h
    · rw [List.map_cons, List.mem_cons] at h
      rcases h with h | h
      · left
        rw [alookup_dictInsert, if_pos h]
        rfl
      · right
        exact h

theorem updateNode_names (s : GState) (i : Nat) (f : NodeD → NodeD)
    (hf : ∀ n, (f n).name = n.name) :
    (updateNode s i f).nodes.map (fun p => p.2.name) = s.nodes.map (fun p => p.2.name) := by
  show (s.nodes.map fun p => if p.1 = i then (p.1, f p.2) else p).map (fun p => p.2.name) = _
  rw [List.map_map]
  apply List.map_congr_left
  intro p _
  by_cases h : p.1 = i <;> simp [h, hf]

theorem add_edge_names (s : GState) (i e : Nat) :
    (add_edge s i e).nodes.map (fun p => p.2.name) = s.nodes.map (fun p => p.2.name) := by
  have hpush : ∀ t : GState, (pushEdge t i e).nodes.map (fun p => p.2.name) =
      t.nodes.map (fun p => p.2.name) :=
    fun t => updateNode_names t i (fun n => { n with edges := n.edges ++ [e] })
      (fun _ => rfl)
  rcases add_edge_cases s i e with hc | hc | hc <;> rw [hc]
  · rw [hpush]
  · rw [hpush, hpush]

theorem newEdge_names_always (s : GState) (src dst : Nat) :
    (newEdge s src dst).nodes.map (fun p => p.2.name) = s.nodes.map (fun p => p.2.name) := by
  show (add_edge (add_edge (allocEdge s src dst) src s.nextE) dst s.nextE).nodes.map
    (fun p => p.2.name) = _
  rw [add_edge_names, add_edge_names]
  rfl

theorem mkNodes_length : ∀ (doc : List NodeRec) (i : Nat),
    (mkNodes i doc).length = doc.length := by
  intro doc
  induction doc with
  | nil => intro i; rfl
  | cons r rs ih =>
    intro i
    show (mkNodes (i + 1) rs).length + 1 = rs.length + 1
    rw [ih (i + 1)]

theorem mkNodes_names : ∀ (doc : List NodeRec) (i : Nat),
    (mkNodes i doc).map (fun p => p.2.name) = doc.map NodeRec.name := by
  intro doc
  induction doc with
  | nil => intro i; rfl
  | cons r rs ih =>
    intro i
    show r.name :: (mkNodes (i + 1) rs).map (fun p => p.2.name) = r.name :: _
    rw [ih (i + 1)]

theorem mkNodes_getElem? : ∀ (doc : List NodeRec) (i k : Nat) (r : NodeRec),
    doc[k]? = some r → (mkNodes i doc)[k]? = some (i + k, recNode r) := by
  intro doc
  induction doc with
  | nil =>
    intro i k r hr
    rw [show ([] : List NodeRec)[k]? = none from by cases k <;> rfl] at hr
    cases hr
  | cons r0 rs ih =>
    intro i k r hr
    cases k with
    | zero =>
      rw [List.getElem?_cons_zero] at hr
      cases hr
      show ((i, recNode r0) :: mkNodes (i + 1) rs)[0]? = _
      rw [List.getElem?_cons_zero, show i + 0 = i from rfl]
    | succ k =>
      rw [List.getElem?_cons_succ] at hr
      show ((i, recNode r0) :: mkNodes (i + 1) rs)[k + 1]? = _
      rw [List.getElem?_cons_succ, show i + (k + 1) = (i + 1) + k by omega]
      exact ih (i + 1) k r hr

theorem save_names (s : GState) :
    (save_graph s).map NodeRec.name = s.nodes.map (fun p => p.2.name) := by
  unfold save_graph
  rw [List.map_map]
  rfl

theorem loadEdges_ok_of_resolve : ∀ (l : List (String × String)) (st : GState),
    (∀ xy ∈ l, (alookup st.nodesMap xy.1).isSome ∧ (alookup st.nodesMap xy.2).isSome) →
    ∃ s2, loadEdges st l = .ok s2 := by
  intro l
  induction l with
  | nil =>
    intro st _
    exact ⟨st, rfl⟩
  | cons xy rest ih =>
    intro st hres
    obtain ⟨x, y⟩ := xy
    obtain ⟨hx, hy⟩ := hres (x, y) (List.mem_cons_self _ _)
    cases hxv : alookup st.nodesMap x with
    | none =>
      rw [hxv] at hx
      simp at hx
    | some src =>
      cases hyv : alookup st.nodesMap y with
      | none =>
        rw [hyv] at hy
        simp at hy
      | some dst =>
        rw [loadEdges_cons_step st x y rest src dst hxv hyv]
        apply ih
        intro xy2 hxy2
        rw [newEdge_nodesMap_always]
        exact hres xy2 (List.mem_cons_of_mem _ hxy2)

/-- Every name occurring in a pair collected from an export is the name of a
live node of the exported state, hence a name of the export's records. -/
theorem save_pair_names (s : GState) (hwf : WF s) :
    ∀ xy ∈ emFold [] (save_graph s),
      xy.1 ∈ (save_graph s).map NodeRec.name ∧ xy.2 ∈ (save_graph s).map NodeRec.name := by
  intro xy hxy
  rcases (emFold_mem (save_graph s) [] xy).mp hxy with h | ⟨r, hr, hxyr⟩
  · cases h
  · obtain ⟨q, hq, hrq⟩ := List.mem_map.mp hr
    subst hrq
    have hxy2 : xy ∈ (edgeList s q.1).map (pairOf s) := by
      rw [← get_edges_eq_map]
      exact hxyr
    obtain ⟨e, he, hxye⟩ := List.mem_map.mp hxy2
    obtain ⟨ed, hed, _⟩ := hwf.edgeList_live q.1 e he
    obtain ⟨hs1, hs2⟩ := hwf.endsLive (e, ed) (alookup_mem s.edges e ed hed)
    have hp : pairOf s e = (nameOf s ed.src, nameOf s ed.dst) := by
      unfold pairOf
      rw [hed]
    subst hxye
    rw [hp, save_names]
    constructor
    · cases hv : alookup s.nodes ed.src with
      | none =>
        rw [hv] at hs1
        simp at hs1
      | some nv =>
        have hname : nameOf s ed.src = nv.name := by
          unfold nameOf
          rw [hv]
          rfl
        show nameOf s ed.src ∈ _
        rw [hname]
        exact List.mem_map.mpr ⟨(ed.src, nv), alookup_mem s.nodes ed.src nv hv, rfl⟩
    · cases hv : alookup s.nodes ed.dst with
      | none =>
        rw [hv] at hs2
        simp at hs2
      | some nv =>
        have hname : nameOf s ed.dst = nv.name := by
          unfold nameOf
          rw [hv]
          rfl
        show nameOf s ed.dst ∈ _
        rw [hname]
        exact List.mem_map.mpr ⟨(ed.dst, nv), alookup_mem s.nodes ed.dst nv hv, rfl⟩

/-- The per-node pair trace of a successful second import loop: starting from
a well-formed state whose name index is consistent and whose pending pair
list stays globally duplicate-free, each live node's `get_edges` view grows
by exactly those processed pairs that mention the node's name, in processing
order. -/
theorem loadEdges_lists : ∀ (l : List (String × String)) (st : GState),
    WF st →
    (∀ p ∈ st.nodesMap, ∃ n, alookup st.nodes p.2 = some n ∧ n.name = p.1) →
    namesNodup st →
    ((st.edges.map (fun p => pairOf st p.1)) ++ l).Nodup →
    ∀ s2, loadEdges st l = .ok s2 →
      ∀ (j : Nat) (nm : String) (n : NodeD),
        alookup st.nodes j = some n → n.name = nm →
        (edgeList s2 j).map (pairOf s2) =
          (edgeList st j).map (pairOf st) ++
            l.filter (fun xy => decide (xy.1 = nm ∨ xy.2 = nm)) := by
  intro l
  induction l with
  | nil =>
    intro st hwf hmap hnmnd hnd s2 h2 j nm n hj hname
    rw [show loadEdges st [] = .ok st from rfl] at h2
    cases h2
    rw [List.filter_nil, List.append_nil]
  | cons xy rest ih =>
    intro st hwf hmap hnmnd hnd s2 h2 j nm n hj hname
    obtain ⟨x, y⟩ := xy
    cases hx : alookup st.nodesMap x with
    | none =>
      rw [loadEdges_cons_err1 st x y rest hx] at h2
      cases h2
    | some src =>
    cases hy : alookup st.nodesMap y with
    | none =>
      rw [loadEdges_cons_err2 st x y rest src hx hy] at h2
      cases h2
    | some dst =>
    rw [loadEdges_cons_step st x y rest src dst hx hy] at h2
    obtain ⟨nsrc, hnsrc, hnamesrc⟩ := hmap (x, src) (alookup_mem st.nodesMap x src hx)
    obtain ⟨ndst, hndst, hnamedst⟩ := hmap (y, dst) (alookup_mem st.nodesMap y dst hy)
    have hnsrc2 : alookup st.nodes src = some nsrc := hnsrc
    have hndst2 : alookup st.nodes dst = some ndst := hndst
    have hnamesrc2 : nsrc.name = x := hnamesrc
    have hnamedst2 : ndst.name = y := hnamedst
    have hnames : (nameOf st src, nameOf st dst) = (x, y) := by
      unfold nameOf
      rw [hnsrc2, hndst2]
      show (nsrc.name, ndst.name) = (x, y)
      rw [hnamesrc2, hnamedst2]
    have hnd2 := hnd
    rw [show (x, y) :: rest = [(x, y)] ++ rest from rfl, ← List.append_assoc] at hnd2
    have hndleft : ((st.edges.map (fun p => pairOf st p.1)) ++ [(x, y)]).Nodup :=
      hnd2.of_append_left
    have hglobal : (nameOf st src, nameOf st dst) ∉
        st.edges.map (fun p => pairOf st p.1) := by
      rw [hnames]
      intro hmem
      rcases (List.nodup_append).mp hndleft with ⟨_, _, hdisj⟩
      exact hdisj hmem (List.mem_singleton.mpr rfl)
    obtain ⟨hok, hwf2⟩ := WF_newEdge st src dst hwf (by rw [hnsrc]; rfl)
      (by rw [hndst]; rfl) hglobal
    have hmap2 : ∀ p ∈ (newEdge st src dst).nodesMap,
        ∃ n2, alookup (newEdge st src dst).nodes p.2 = some n2 ∧ n2.name = p.1 := by
      rw [newEdge_nodesMap st src dst hok]
      intro p hp
      obtain ⟨n2, hn2, hname2⟩ := hmap p hp
      rw [newEdge_lookup_nodes st src dst hok p.2]
      by_cases hcp : p.2 = src ∨ p.2 = dst
      · rw [if_pos hcp, hn2]
        exact ⟨{ n2 with edges := n2.edges ++ [st.nextE] }, rfl, hname2⟩
      · rw [if_neg hcp]
        exact ⟨n2, hn2, hname2⟩
    have hnmnd2 : namesNodup (newEdge st src dst) := by
      unfold namesNodup
      rw [newEdge_names_always]
      exact hnmnd
    have hnd3 : ((newEdge st src dst).edges.map
        (fun p => pairOf (newEdge st src dst) p.1) ++ rest).Nodup := by
      rw [newEdge_pairs st src dst hok, hnames, List.append_assoc]
      rw [show [(x, y)] ++ rest = (x, y) :: rest from rfl]
      exact hnd
    have hiff : (j = src ∨ j = dst) ↔ (x = nm ∨ y = nm) := by
      constructor
      · rintro (hjs | hjd)
        · left
          have hsame : nsrc = n := Option.some.inj ((hjs ▸ hnsrc2 : _).symm.trans hj)
          rw [← hnamesrc2, hsame, hname]
        · right
          have hsame : ndst = n := Option.some.inj ((hjd ▸ hndst2 : _).symm.trans hj)
          rw [← hnamedst2, hsame, hname]
      · rintro (hx1 | hy1)
        · left
          have heq : (src, nsrc) = (j, n) := names_inj st hnmnd (src, nsrc)
            (alookup_mem st.nodes src nsrc hnsrc2) (j, n) (alookup_mem st.nodes j n hj)
            (show nsrc.name = n.name by rw [hnamesrc2, hx1]; exact hname.symm)
          exact (congrArg Prod.fst heq).symm
        · right
          have heq : (dst, ndst) = (j, n) := names_inj st hnmnd (dst, ndst)
            (alookup_mem st.nodes dst ndst hndst2) (j, n) (alookup_mem st.nodes j n hj)
            (show ndst.name = n.name by rw [hnamedst2, hy1]; exact hname.symm)
          exact (congrArg Prod.fst heq).symm
    by_cases hc : j = src ∨ j = dst
    · have hj2 : alookup (newEdge st src dst).nodes j =
          some { n with edges := n.edges ++ [st.nextE] } := by
        rw [newEdge_lookup_nodes st src dst hok j, if_pos hc, hj]
        rfl
      have hres := ih (newEdge st src dst) hwf2 hmap2 hnmnd2 hnd3 s2 h2 j nm
        { n with edges := n.edges ++ [st.nextE] } hj2 hname
      have hmid : (edgeList (newEdge st src dst) j).map (pairOf (newEdge st src dst)) =
          (edgeList st j).map (pairOf st) ++ [(x, y)] := by
        rw [edgeList_newEdge st src dst hok j, if_pos hc, List.map_append]
        congr 1
        · apply List.map_congr_left
          intro k hk
          exact pairOf_newEdge_ne st src dst hok k
            (Nat.ne_of_lt (hwf.edgeList_lt_nextE j k hk))
        · show [pairOf (newEdge st src dst) st.nextE] = _
          rw [pairOf_newEdge_self st src dst hok, hnames]
      have hfil : ((x, y) :: rest).filter (fun xy => decide (xy.1 = nm ∨ xy.2 = nm)) =
          (x, y) :: rest.filter (fun xy => decide (xy.1 = nm ∨ xy.2 = nm)) := by
        rw [List.filter_cons]
        rw [if_pos (show decide ((x, y).1 = nm ∨ (x, y).2 = nm) = true from
          decide_eq_true (hiff.mp hc))]
      rw [hres, hmid, List.append_assoc, hfil]
      rfl
    · have hj2 : alookup (newEdge st src dst).nodes j = some n := by
        rw [newEdge_lookup_nodes st src dst hok j, if_neg hc]
        exact hj
      have hres := ih (newEdge st src dst) hwf2 hmap2 hnmnd2 hnd3 s2 h2 j nm n hj2 hname
      have hmid : (edgeList (newEdge st src dst) j).map (pairOf (newEdge st src dst)) =
          (edgeList st j).map (pairOf st) := by
        rw [edgeList_newEdge st src dst hok j, if_neg hc]
        apply List.map_congr_left
        intro k hk
        exact pairOf_newEdge_ne st src dst hok k
          (Nat.ne_of_lt (hwf.edgeList_lt_nextE j k hk))
      have hfil : ((x, y) :: rest).filter (fun xy => decide (xy.1 = nm ∨ xy.2 = nm)) =
          rest.filter (fun xy => decide (xy.1 = nm ∨ xy.2 = nm)) := by
        rw [List.filter_cons]
        rw [if_neg (show ¬ decide ((x, y).1 = nm ∨ (x, y).2 = nm) = true from
          fun hdec => hc (hiff.mpr (of_decide_eq_true hdec)))]
      rw [hres, hmid, hfil]

/-- C3.  Round trip: along I3-disciplined reachable runs with no pending
selection (the import path is specified to run selection-free), importing an
export succeeds, and re-exporting produces records aligned one-to-one with
the original export's records — same name, color, text color, position and
metadata — whose per-node edge-pair lists are equal as sets (the re-export
lists each node's pairs in global first-seen order rather than per-node
list order, so only set equality, as claimed, holds). -/
theorem c3_round_trip (s : GState) (h : GoodReach s) (hsel : s.selected = none)
    (file : String) (hf : ¬ file.length ≤ 3) :
    ∃ s2, load_graph s file (save_graph s) = .ok s2 ∧
      List.Forall₂ (fun r1 r2 =>
          r1.name = r2.name ∧ r1.color = r2.color ∧ r1.textcolor = r2.textcolor ∧
          r1.pos = r2.pos ∧ r1.mdata = r2.mdata ∧ (∀ x, x ∈ r1.edges ↔ x ∈ r2.edges))
        (save_graph s) (save_graph s2) := by
  obtain ⟨hwf, hnd⟩ := goodReach_wf s h
  have hstWF : WF (loadBase s (save_graph s)) := WF_loadBase s (save_graph s) hsel
  have hstmap := mapOK_loadBase s (save_graph s)
  have hstnames : namesNodup (loadBase s (save_graph s)) := by
    unfold namesNodup
    show ((mkNodes s.nextN (save_graph s)).map (fun p => p.2.name)).Nodup
    rw [mkNodes_names, save_names]
    exact hnd
  have hresolve : ∀ xy ∈ emFold [] (save_graph s),
      (alookup (loadBase s (save_graph s)).nodesMap xy.1).isSome ∧
      (alookup (loadBase s (save_graph s)).nodesMap xy.2).isSome := by
    intro xy hxy
    obtain ⟨h1, h2⟩ := save_pair_names s hwf xy hxy
    exact ⟨mkMap_isSome (save_graph s) [] s.nextN xy.1 (Or.inr h1),
      mkMap_isSome (save_graph s) [] s.nextN xy.2 (Or.inr h2)⟩
  obtain ⟨s2, h2⟩ := loadEdges_ok_of_resolve (emFold [] (save_graph s))
    (loadBase s (save_graph s)) hresolve
  have hload : load_graph s file (save_graph s) = .ok s2 := by
    rw [load_graph_eq s file (save_graph s) hf]
    exact h2
  refine ⟨s2, hload, ?_⟩
  have hframe := loadEdges_frame (emFold [] (save_graph s)) (loadBase s (save_graph s)) s2 h2
  have hkeys : s2.nodes.map Prod.fst = (loadBase s (save_graph s)).nodes.map Prod.fst :=
    hframe.2.1
  have hndl : (((loadBase s (save_graph s)).edges.map
      (fun p => pairOf (loadBase s (save_graph s)) p.1)) ++
      emFold [] (save_graph s)).Nodup := by
    show (([] : List (String × String)) ++ emFold [] (save_graph s)).Nodup
    rw [List.nil_append]
    exact emFold_nodup (save_graph s) [] List.nodup_nil
  rw [List.forall₂_iff_get]
  have hlenkeys : s2.nodes.length = (loadBase s (save_graph s)).nodes.length := by
    have h1 := congrArg List.length hkeys
    rw [List.length_map, List.length_map] at h1
    exact h1
  refine ⟨?_, ?_⟩
  · show (save_graph s).length = (save_graph s2).length
    show (s.nodes.map (fun p => nodeGet s p.1 p.2)).length =
      (s2.nodes.map (fun p => nodeGet s2 p.1 p.2)).length
    rw [List.length_map, List.length_map, hlenkeys]
    show s.nodes.length = (mkNodes s.nextN (save_graph s)).length
    rw [mkNodes_length]
    show s.nodes.length = (s.nodes.map (fun p => nodeGet s p.1 p.2)).length
    rw [List.length_map]
  · intro k h1 h2x
    have hk : k < s.nodes.length := by
      have h1x : k < (s.nodes.map (fun p => nodeGet s p.1 p.2)).length := h1
      rw [List.length_map] at h1x
      exact h1x
    obtain ⟨q, hqk⟩ : ∃ q, s.nodes[k]? = some q :=
      ⟨s.nodes.get ⟨k, hk⟩, by rw [List.getElem?_eq_some_iff]; exact ⟨hk, rfl⟩⟩
    have hr1 : (save_graph s)[k]? = some (nodeGet s q.1 q.2) := by
      show (s.nodes.map (fun p => nodeGet s p.1 p.2))[k]? = _
      rw [List.getElem?_map, hqk]
      rfl
    have hval1 : (save_graph s).get ⟨k, h1⟩ = nodeGet s q.1 q.2 := by
      obtain ⟨hh, heq⟩ := List.getElem?_eq_some_iff.mp hr1
      exact heq
    have hstlook : alookup (loadBase s (save_graph s)).nodes (s.nextN + k) =
        some (recNode (nodeGet s q.1 q.2)) :=
      mkNodes_lookup (save_graph s) s.nextN k _ hr1
    have hkk : (s2.nodes.map Prod.fst)[k]? = some (s.nextN + k) := by
      rw [hkeys]
      show ((mkNodes s.nextN (save_graph s)).map Prod.fst)[k]? = _
      rw [List.getElem?_map, mkNodes_getElem? (save_graph s) s.nextN k _ hr1]
      rfl
    rw [List.getElem?_map] at hkk
    cases hq2 : s2.nodes[k]? with
    | none =>
      rw [hq2] at hkk
      cases hkk
    | some q2 =>
    rw [hq2] at hkk
    have hq2key : q2.1 = s.nextN + k := Option.some.inj hkk
    have hval2 : (save_graph s2).get ⟨k, h2x⟩ = nodeGet s2 q2.1 q2.2 := by
      have hr2 : (save_graph s2)[k]? = some (nodeGet s2 q2.1 q2.2) := by
        show (s2.nodes.map (fun p => nodeGet s2 p.1 p.2))[k]? = _
        rw [List.getElem?_map, hq2]
        rfl
      obtain ⟨hh, heq⟩ := List.getElem?_eq_some_iff.mp hr2
      exact heq
    rw [hval1, hval2]
    have hs2keys : (s2.nodes.map Prod.fst).Nodup := by
      rw [hkeys]
      exact mkNodes_keys_nodup (save_graph s) s.nextN
    have hq2mem : (q2.1, q2.2) ∈ s2.nodes := by
      rw [Prod.mk.eta]
      exact List.getElem?_mem hq2
    have halookup2 : alookup s2.nodes q2.1 = some q2.2 :=
      alookup_of_mem_nodup s2.nodes q2.1 q2.2 hs2keys hq2mem
    have hdframe := hframe.2.2.2 q2.1
    rw [halookup2, hq2key, hstlook] at hdframe
    have hdropE : dropE q2.2 = dropE (recNode (nodeGet s q.1 q.2)) :=
      Option.some.inj hdframe
    have hlists := loadEdges_lists (emFold [] (save_graph s)) (loadBase s (save_graph s))
      hstWF hstmap hstnames hndl s2 h2 (s.nextN + k) (nodeGet s q.1 q.2).name
      (recNode (nodeGet s q.1 q.2)) hstlook rfl
    have hstedge : edgeList (loadBase s (save_graph s)) (s.nextN + k) = [] :=
      edgeList_eq_of_alookup (loadBase s (save_graph s)) (s.nextN + k)
        (recNode (nodeGet s q.1 q.2)) hstlook
    rw [hstedge, List.map_nil, List.nil_append] at hlists
    have hq1look : alookup s.nodes q.1 = some q.2 :=
      alookup_of_mem_nodup s.nodes q.1 q.2 hwf.nodesKeys
        (by rw [Prod.mk.eta]; exact List.getElem?_mem hqk)
    have hnq : nameOf s q.1 = q.2.name := by
      unfold nameOf
      rw [hq1look]
      rfl
    refine ⟨(congrArg NodeD.name hdropE).symm, (congrArg NodeD.color hdropE).symm,
      (congrArg NodeD.textcolor hdropE).symm, (congrArg NodeD.pos hdropE).symm,
      (congrArg NodeD.mdata hdropE).symm, ?_⟩
    intro x
    show x ∈ (nodeGet s q.1 q.2).edges ↔ x ∈ (nodeGet s2 q2.1 q2.2).edges
    rw [show (nodeGet s q.1 q.2).edges = (edgeList s q.1).map (pairOf s) from
      get_edges_eq_map s q.1]
    rw [show (nodeGet s2 q2.1 q2.2).edges = (emFold [] (save_graph s)).filter
        (fun xy => decide (xy.1 = (nodeGet s q.1 q.2).name ∨
          xy.2 = (nodeGet s q.1 q.2).name)) from by
      rw [show (nodeGet s2 q2.1 q2.2).edges = (edgeList s2 q2.1).map (pairOf s2) from
        get_edges_eq_map s2 q2.1, hq2key]
      exact hlists]
    constructor
    · intro hx
      obtain ⟨e, he, hxe⟩ := List.mem_map.mp hx
      obtain ⟨ed, hede, hor⟩ := hwf.edgeList_live q.1 e he
      refine List.mem_filter.mpr ⟨?_, ?_⟩
      · refine (emFold_mem (save_graph s) [] x).mpr
          (Or.inr ⟨nodeGet s q.1 q.2, List.getElem?_mem hr1, ?_⟩)
        show x ∈ get_edges s q.1
        rw [get_edges_eq_map]
        exact hx
      · apply decide_eq_true
        have hpx : pairOf s e = (nameOf s ed.src, nameOf s ed.dst) := by
          unfold pairOf
          rw [hede]
        rcases hor with hsrc | hdst
        · left
          show x.1 = (nodeGet s q.1 q.2).name
          rw [← hxe, hpx]
          show nameOf s ed.src = (nodeGet s q.1 q.2).name
          rw [hsrc]
          exact hnq
        · right
          show x.2 = (nodeGet s q.1 q.2).name
          rw [← hxe, hpx]
          show nameOf s ed.dst = (nodeGet s q.1 q.2).name
          rw [hdst]
          exact hnq
    · intro hx
      have hxm := List.mem_of_mem_filter hx
      have hxp := (List.mem_filter.mp hx).2
      have hxor : x.1 = (nodeGet s q.1 q.2).name ∨ x.2 = (nodeGet s q.1 q.2).name :=
        of_decide_eq_true hxp
      rcases (emFold_mem (save_graph s) [] x).mp hxm with h0 | ⟨r', hr', hxr'⟩
      · cases h0
      obtain ⟨q', hq'mem, hrq'⟩ := List.mem_map.mp hr'
      subst hrq'
      have hx2 : x ∈ (edgeList s q'.1).map (pairOf s) := by
        rw [← get_edges_eq_map]
        exact hxr'
      obtain ⟨e, he, hxe⟩ := List.mem_map.mp hx2
      obtain ⟨ed, hede, _⟩ := hwf.edgeList_live q'.1 e he
      obtain ⟨hl1, hl2⟩ := hwf.endsLive (e, ed) (alookup_mem s.edges e ed hede)
      have hsymm := hwf.sym (e, ed) (alookup_mem s.edges e ed hede)
      have hpx : pairOf s e = (nameOf s ed.src, nameOf s ed.dst) := by
        unfold pairOf
        rw [hede]
      rcases hxor with hx1 | hx1
      · have hn1 : nameOf s ed.src = q.2.name := by
          rw [← hxe] at hx1
          rw [hpx] at hx1
          exact hx1
        have hid : ed.src = q.1 := node_id_of_name s hnd q.1 q.2 hq1look ed.src hl1 hn1
        refine List.mem_map.mpr ⟨e, ?_, hxe⟩
        rw [← hid]
        exact hsymm.1
      · have hn1 : nameOf s ed.dst = q.2.name := by
          rw [← hxe] at hx1
          rw [hpx] at hx1
          exact hx1
        have hid : ed.dst = q.1 := node_id_of_name s hnd q.1 q.2 hq1look ed.dst hl2 hn1
        refine List.mem_map.mpr ⟨e, ?_, hxe⟩
        rw [← hid]
        exact hsymm.2

theorem c3_round_trip_witness :
    GoodReach runA4 ∧ runA4.selected = none ∧
    ∃ s2, load_graph runA4 "roundtrip.json" (save_graph runA4) = .ok s2 ∧
      List.Forall₂ (fun r1 r2 =>
          r1.name = r2.name ∧ r1.color = r2.color ∧ r1.textcolor = r2.textcolor ∧
          r1.pos = r2.pos ∧ r1.mdata = r2.mdata ∧ (∀ x, x ∈ r1.edges ↔ x ∈ r2.edges))
        (save_graph runA4) (save_graph s2) :=
  ⟨goodReach_runA4, by decide,
    c3_round_trip runA4 goodReach_runA4 (by decide) "roundtrip.json" (by decide)⟩
